import Mathlib

/-!
Shallow embedding of the ISO 8583 codec (`internal/iso8583/iso.go`), the
package field table (`CommonSpec`), and the reconnect backoff of
`Connector.loop` (`internal/transport/conn.go`) of the payment-gateway
repository, together with proofs of the specification's claims about them.

Go strings and byte slices are modelled as `List Nat` (one entry per byte);
Go's `int` arithmetic that can go negative is modelled on `Int`; a Go map
`map[int]string` is modelled as an association list with first-match lookup.
A Go function that can panic (out-of-range slicing) returns the dedicated
`Res.panicked` outcome.
-/

namespace Iso8583

/-- A Go byte string: a list of byte values (each `< 256` on a real wire). -/
abbrev Bytes := List Nat

/-- Mirrors `type Message struct { MTI string; Fields map[int]string }`.
The field map is an association list from field number to ASCII value;
lookup takes the first matching entry, as a Go map would. -/
structure Message where
  MTI : Bytes
  Fields : List (Nat × Bytes)
deriving DecidableEq

/-- `Message.Get`: value of a field and (via `Option`) its presence. -/
def Message.get (m : Message) (f : Nat) : Option Bytes :=
  m.Fields.lookup f

/-- One constructor per distinct error site in `iso.go`. -/
inductive Err where
  | invalidMTI
  | unsupportedField (f : Nat)
  | fixedLen (f : Nat)
  | llvarTooLong
  | lllvarTooLong
  | bufShortMLI
  | incomplete
  | shortHeader
  | shortSecondary
  | truncatedDE (f : Nat)
  | truncLLLen
  | invalidLLLen
  | truncLLVal
  | truncLLLLen
  | invalidLLLLen
  | truncLLLVal
  | notImplemented (f : Nat)
  | extraBytes (n : Nat)
deriving DecidableEq

instance : DecidableEq (Except Err Bytes) := fun x y =>
  match x, y with
  | .ok a, .ok b =>
    if h : a = b then isTrue (by rw [h]) else isFalse (fun hh => h (Except.ok.inj hh))
  | .error a, .error b =>
    if h : a = b then isTrue (by rw [h]) else isFalse (fun hh => h (Except.error.inj hh))
  | .ok _, .error _ => isFalse (fun hh => Except.noConfusion hh)
  | .error _, .ok _ => isFalse (fun hh => Except.noConfusion hh)

/-- `packLLVAR`: a 2-digit ASCII length (`%02d` of a length that the guard has
bounded by 99), then the value bytes. -/
def packLLVAR (v : Bytes) : Except Err Bytes :=
  if v.length > 99 then .error .llvarTooLong
  else .ok ([48 + v.length / 10, 48 + v.length % 10] ++ v)

/-- `packLLLVAR`: a 3-digit ASCII length (`%03d` of a length bounded by 999),
then the value bytes. -/
def packLLLVAR (v : Bytes) : Except Err Bytes :=
  if v.length > 999 then .error .lllvarTooLong
  else .ok ([48 + v.length / 100, 48 + v.length / 10 % 10, 48 + v.length % 10] ++ v)

/-- ASCII decimal digit test. -/
def isDigit (c : Nat) : Bool := 48 ≤ c && c ≤ 57

/-- Decimal value of a nonempty all-digit string, else `none`. -/
def digitsVal (s : Bytes) : Option Nat :=
  if s.isEmpty then none
  else if s.all isDigit then some (s.foldl (fun a c => a * 10 + (c - 48)) 0)
  else none

/-- `strconv.Atoi` restricted to the short strings used here: an optional
sign byte (`+` is 43, `-` is 45) followed by decimal digits. -/
def atoi (s : Bytes) : Option Int :=
  match s with
  | [] => none
  | c :: rest =>
    if c = 43 then (digitsVal rest).map (fun n => (n : Int))
    else if c = 45 then (digitsVal rest).map (fun n => -(n : Int))
    else (digitsVal s).map (fun n => (n : Int))

/-- Outcome of Go code that can return a value, return an error, or panic. -/
inductive Res (α : Type) where
  | ok (v : α)
  | err (e : Err)
  | panicked
deriving DecidableEq

/-- `unpackLLVAR b off`: read a 2-byte length prefix via `Atoi`, then that many
value bytes, returning the value and the advanced offset.  A negative parsed
length `l` passes the `off+l > len(b)` check and then panics in the Go slice
expression `b[off : off+l]` (upper bound below lower bound). -/
def unpackLLVAR (b : Bytes) (off : Nat) : Res (Bytes × Nat) :=
  if off + 2 > b.length then .err .truncLLLen
  else
    match atoi ((b.drop off).take 2) with
    | none => .err .invalidLLLen
    | some l =>
      if (off : Int) + 2 + l > (b.length : Int) then .err .truncLLVal
      else if l < 0 then .panicked
      else .ok ((b.drop (off + 2)).take l.toNat, off + 2 + l.toNat)

/-- `unpackLLLVAR`: as `unpackLLVAR` with a 3-byte length prefix. -/
def unpackLLLVAR (b : Bytes) (off : Nat) : Res (Bytes × Nat) :=
  if off + 3 > b.length then .err .truncLLLLen
  else
    match atoi ((b.drop off).take 3) with
    | none => .err .invalidLLLLen
    | some l =>
      if (off : Int) + 3 + l > (b.length : Int) then .err .truncLLLVal
      else if l < 0 then .panicked
      else .ok ((b.drop (off + 3)).take l.toNat, off + 3 + l.toNat)

/-- The `set(bit)` closure of `Pack`: set the bit for field `f` in the
primary (fields 1..64) or secondary (fields 65..128) bitmap. -/
def setBit (ps : Nat × Nat) (f : Nat) : Nat × Nat :=
  if f ≤ 64 then (ps.1 ||| 2 ^ (64 - f), ps.2) else (ps.1, ps.2 ||| 2 ^ (128 - f))

/-- The field-number validation in the `for f := range m.Fields` loop of
`Pack`: `f < 1 || f > 128 || f == 1`. -/
def badField (f : Nat) : Bool := f < 1 || f > 128 || f == 1

/-- The bitmap-building loop of `Pack`: reject an out-of-range field number,
otherwise accumulate the primary and secondary bitmaps over the field keys. -/
def Message.bitmaps (m : Message) : Except Err (Nat × Nat) :=
  match (m.Fields.map Prod.fst).find? badField with
  | some f => .error (.unsupportedField f)
  | none => .ok (m.Fields.foldl (fun ps p => setBit ps p.1) (0, 0))

/-- The `switch f` encoder of `Pack` for one present field: fixed-length
fields 7, 11, 70 and variable-length fields 48 (LLLVAR) and 102 (LLVAR);
every other field number fails with `field f not implemented in skeleton`. -/
def packField (f : Nat) (v : Bytes) : Except Err Bytes :=
  if f = 7 then (if v.length = 10 then .ok v else .error (.fixedLen 7))
  else if f = 11 then (if v.length = 6 then .ok v else .error (.fixedLen 11))
  else if f = 48 then packLLLVAR v
  else if f = 70 then (if v.length = 3 then .ok v else .error (.fixedLen 70))
  else if f = 102 then packLLVAR v
  else .error (.notImplemented f)

/-- The `for f := 2; f <= 128; f++` encode loop of `Pack`, over an explicit
list of field numbers: absent fields are skipped, present ones encoded in
list order and concatenated. -/
def packFields (m : Message) : List Nat → Except Err Bytes
  | [] => .ok []
  | f :: fs =>
    match m.get f with
    | none => packFields m fs
    | some v =>
      match packField f v with
      | .error e => .error e
      | .ok e =>
        match packFields m fs with
        | .error e2 => .error e2
        | .ok r => .ok (e ++ r)

/-- The ascending field numbers 2..128 walked by both loops. -/
def fieldRange : List Nat := List.range' 2 127

/-- Big-endian byte encoding of the low `w` bytes of `x`
(`binary.BigEndian.PutUint16/PutUint64` after Go's integer truncation). -/
def be (w x : Nat) : Bytes := (List.range w).map (fun i => x / 2 ^ (8 * (w - 1 - i)) % 256)

/-- Big-endian read of a byte slice (`binary.BigEndian.Uint16/Uint64`). -/
def readU (l : Bytes) : Nat := l.foldl (fun a c => a * 256 + c) 0

/-- Final buffer assembly of `Pack`: body = MTI, primary bitmap (with bit 1
forced when a secondary bitmap is present), optional secondary bitmap, field
encodings; the whole prefixed with the 2-byte MLI of the body length. -/
def assemble (mti : Bytes) (pr se : Nat) (fb : Bytes) : Bytes :=
  be 2 (mti ++ be 8 (if se ≠ 0 then pr ||| 2 ^ 63 else pr) ++
        (if se ≠ 0 then be 8 se else []) ++ fb).length ++
  (mti ++ be 8 (if se ≠ 0 then pr ||| 2 ^ 63 else pr) ++
        (if se ≠ 0 then be 8 se else []) ++ fb)

/-- `Message.Pack`: wire format `[2B MLI][4B MTI][8B bitmap][fields...]`. -/
def Message.Pack (m : Message) : Except Err Bytes :=
  if m.MTI.length ≠ 4 then .error .invalidMTI
  else
    match m.bitmaps with
    | .error e => .error e
    | .ok (primary, secondary) =>
      match packFields m fieldRange with
      | .error e => .error e
      | .ok fb => .ok (assemble m.MTI primary secondary fb)

/-- The fixed-length read cases of the `Unpack` switch (fields 7, 11, 70):
`w` raw bytes, or `truncated DEf`. -/
def readFixed (f w : Nat) (p : Bytes) (off : Nat) : Res (Bytes × Nat) :=
  if off + w > p.length then .err (.truncatedDE f)
  else .ok ((p.drop off).take w, off + w)

/-- The `switch f` decoder of `Unpack` for one present field. -/
def unpackField (f : Nat) (p : Bytes) (off : Nat) : Res (Bytes × Nat) :=
  if f = 7 then readFixed 7 10 p off
  else if f = 11 then readFixed 11 6 p off
  else if f = 48 then unpackLLLVAR p off
  else if f = 70 then readFixed 70 3 p off
  else if f = 102 then unpackLLVAR p off
  else .err (.notImplemented f)

/-- The `present(bit)` closure of `Unpack`. -/
def present (pr se f : Nat) : Bool :=
  if f ≤ 64 then pr.testBit (64 - f) else se.testBit (128 - f)

/-- The `for f := 2; f <= 128; f++` decode loop of `Unpack`: decode each
present field in order, threading the offset. -/
def unpackFields (p : Bytes) (pr se : Nat) : List Nat → Nat → Res (List (Nat × Bytes) × Nat)
  | [], off => .ok ([], off)
  | f :: fs, off =>
    if present pr se f then
      match unpackField f p off with
      | .ok (v, off2) =>
        match unpackFields p pr se fs off2 with
        | .ok (l, o) => .ok ((f, v) :: l, o)
        | .err e => .err e
        | .panicked => .panicked
      | .err e => .err e
      | .panicked => .panicked
    else unpackFields p pr se fs off

/-- Tail of `Unpack` after the bitmaps are read: decode the fields, then the
`extra bytes at end` check that the final offset is the end of `p`. -/
def unpackRest (mti : Bytes) (p : Bytes) (pr se : Nat) (off0 : Nat) : Res Message :=
  match unpackFields p pr se fieldRange off0 with
  | .ok (fl, off) =>
    if off ≠ p.length then .err (.extraBytes (p.length - off)) else .ok ⟨mti, fl⟩
  | .err e => .err e
  | .panicked => .panicked

/-- `Unpack` parses the wire format produced by `Pack`: the 2-byte MLI, the
MLI-delimited body `p`, the 4-byte MTI, the primary bitmap, the secondary
bitmap when primary bit 1 is set, then the fields. -/
def Unpack (b : Bytes) : Res Message :=
  if b.length < 2 then .err .bufShortMLI
  else
    if b.length - 2 < readU (b.take 2) then .err .incomplete
    else
      let p := (b.drop 2).take (readU (b.take 2))
      if p.length < 12 then .err .shortHeader
      else
        if (readU ((p.drop 4).take 8)).testBit 63 then
          if p.length < 20 then .err .shortSecondary
          else unpackRest (p.take 4) p (readU ((p.drop 4).take 8)) (readU ((p.drop 12).take 8)) 20
        else unpackRest (p.take 4) p (readU ((p.drop 4).take 8)) 0 12

/-- ASCII bytes of the string 0810. -/
def mti0810 : Bytes := [48, 56, 49, 48]

/-- ASCII bytes of the string 301 (NMM Echo Test code). -/
def nmm301 : Bytes := [51, 48, 49]

/-- `IsEchoResponse`: MTI is 0810, DE70 present and equal to 301, and DE11
present. -/
def IsEchoResponse (m : Message) : Bool :=
  if m.MTI ≠ mti0810 then false
  else
    match m.get 70 with
    | none => false
    | some v => if v ≠ nmm301 then false else (m.get 11).isSome

/-- `FieldCodec` from the package field table (`fields.go`). -/
inductive FieldCodec where
  | FmtFixedNum
  | FmtFixedAns
  | FmtLLVAR
  | FmtLLLVAR
deriving DecidableEq

/-- `FieldSpec` describes one data element: number, codec kind, fixed length.
The human-readable `Name` string of the Go struct is dropped as
proof-irrelevant. -/
structure FieldSpec where
  Num : Nat
  Codec : FieldCodec
  Len : Nat
deriving DecidableEq

/-- The `CommonSpec` table of the package, keyed by field number
(names omitted): the mandatory Field Spec subset of the specification. -/
def CommonSpec : List (Nat × FieldSpec) :=
  [(2, ⟨2, .FmtLLVAR, 0⟩), (3, ⟨3, .FmtFixedNum, 6⟩), (4, ⟨4, .FmtFixedNum, 12⟩),
   (7, ⟨7, .FmtFixedNum, 10⟩), (11, ⟨11, .FmtFixedNum, 6⟩), (12, ⟨12, .FmtFixedNum, 6⟩),
   (13, ⟨13, .FmtFixedNum, 4⟩), (14, ⟨14, .FmtFixedNum, 4⟩), (22, ⟨22, .FmtFixedNum, 3⟩),
   (23, ⟨23, .FmtFixedNum, 3⟩), (24, ⟨24, .FmtFixedNum, 3⟩), (25, ⟨25, .FmtFixedNum, 2⟩),
   (32, ⟨32, .FmtLLVAR, 0⟩), (35, ⟨35, .FmtLLVAR, 0⟩), (37, ⟨37, .FmtFixedAns, 12⟩),
   (38, ⟨38, .FmtFixedAns, 6⟩), (39, ⟨39, .FmtFixedAns, 2⟩), (41, ⟨41, .FmtFixedAns, 8⟩),
   (42, ⟨42, .FmtFixedAns, 15⟩), (43, ⟨43, .FmtFixedAns, 40⟩), (48, ⟨48, .FmtLLLVAR, 0⟩),
   (49, ⟨49, .FmtFixedAns, 3⟩), (52, ⟨52, .FmtFixedAns, 16⟩), (53, ⟨53, .FmtFixedNum, 16⟩),
   (54, ⟨54, .FmtLLLVAR, 0⟩), (55, ⟨55, .FmtLLLVAR, 0⟩), (60, ⟨60, .FmtLLLVAR, 0⟩),
   (61, ⟨61, .FmtLLLVAR, 0⟩), (62, ⟨62, .FmtLLLVAR, 0⟩), (63, ⟨63, .FmtLLLVAR, 0⟩),
   (70, ⟨70, .FmtFixedNum, 3⟩), (102, ⟨102, .FmtLLVAR, 0⟩)]

/-- One populated field satisfies the Field Spec constraints: the field number
has a codec in `CommonSpec`, fixed-length values have exactly the declared
length, LLVAR values have length at most 99, LLLVAR at most 999. -/
def fieldSpecEntryOK (f : Nat) (v : Bytes) : Bool :=
  match CommonSpec.lookup f with
  | none => false
  | some sp =>
    match sp.Codec with
    | .FmtFixedNum => v.length == sp.Len
    | .FmtFixedAns => v.length == sp.Len
    | .FmtLLVAR => decide (v.length ≤ 99)
    | .FmtLLLVAR => decide (v.length ≤ 999)

/-- A Message satisfies the claim's Field Spec constraints: 4-decimal-digit
MTI and every populated field valid per `fieldSpecEntryOK`. -/
def specOK (m : Message) : Bool :=
  m.MTI.length == 4 && m.MTI.all isDigit && m.Fields.all (fun p => fieldSpecEntryOK p.1 p.2)

/-- A Message is within the subset the skeleton `Pack` actually implements:
4-decimal-digit MTI, and every populated field is one of 7 (length 10),
11 (length 6), 48 (length at most 999), 70 (length 3), 102 (at most 99). -/
def implOK (m : Message) : Bool :=
  m.MTI.length == 4 && m.MTI.all isDigit && m.Fields.all (fun p =>
    (p.1 == 7 && p.2.length == 10) || (p.1 == 11 && p.2.length == 6) ||
    (p.1 == 48 && decide (p.2.length ≤ 999)) || (p.1 == 70 && p.2.length == 3) ||
    (p.1 == 102 && decide (p.2.length ≤ 99)))

/-- Success test for `Except`. -/
def isOk (r : Except Err Bytes) : Bool :=
  match r with
  | .ok _ => true
  | .error _ => false

end Iso8583

namespace Transport

/-- One second in `time.Duration` units (nanoseconds). -/
def secondNs : Int := 1000000000

/-- The fixed cap compared against in `Connector.loop`: `30*time.Second`. -/
def capNs : Int := 30 * secondNs

/-- Backoff initialisation of `Connector.loop`: the configured
`RetryBacko` base, defaulted to `2*time.Second` when it is `<= 0`.
This is also the value `backoff` is reset to after a successful dial. -/
def initBackoff (cfg : Int) : Int := if cfg ≤ 0 then 2 * secondNs else cfg

/-- Backoff update after a failed dial: `if backoff < 30*time.Second
{ backoff *= 2 }`. -/
def nextBackoff (bo : Int) : Int := if bo < capNs then bo * 2 else bo

/-- The sleeps performed by `Connector.loop` on a trace of dial outcomes
(`false` = dial error: emit `on_down`, sleep the current backoff, double it
below the cap, retry; `true` = dial success: reset the backoff, run the read
loop until it exits). -/
def loopSleeps (cfg : Int) : List Bool → Int → List Int
  | [], _ => []
  | false :: es, bo => bo :: loopSleeps cfg es (nextBackoff bo)
  | true :: es, _ => loopSleeps cfg es (initBackoff cfg)

/-- Sleeps of a `Connector.loop` run from its start. -/
def sleeps (cfg : Int) (events : List Bool) : List Int :=
  loopSleeps cfg events (initBackoff cfg)

end Transport

namespace Iso8583

theorem length_be (w x : Nat) : (be w x).length = w := by
  simp [be]

theorem be_succ (w x : Nat) : be (w + 1) x = x / 2 ^ (8 * w) % 256 :: be w x := by
  unfold be
  rw [List.range_succ_eq_map, List.map_cons, List.map_map]
  refine congrArg₂ _ (by simp) (List.map_congr_left fun j hj => ?_)
  have h : w + 1 - 1 - (j + 1) = w - 1 - j := by omega
  simp only [Function.comp_apply]
  rw [h]

theorem foldl_readU (l : Bytes) : ∀ z : Nat,
    l.foldl (fun a c => a * 256 + c) z = z * 256 ^ l.length + readU l := by
  induction l with
  | nil => intro z; simp [readU]
  | cons c t ih =>
    intro z
    have hr : readU (c :: t) = c * 256 ^ t.length + readU t := by
      show t.foldl _ (0 * 256 + c) = _
      rw [ih (0 * 256 + c)]; ring
    simp only [List.foldl_cons]
    rw [ih (z * 256 + c), hr, List.length_cons]
    ring

theorem readU_cons (c : Nat) (l : Bytes) : readU (c :: l) = c * 256 ^ l.length + readU l := by
  show l.foldl _ (0 * 256 + c) = _
  rw [foldl_readU]; ring

theorem readU_be (w x : Nat) : readU (be w x) = x % 2 ^ (8 * w) := by
  induction w with
  | zero => simp [be, readU, Nat.mod_one]
  | succ w ih =>
    rw [be_succ, readU_cons, length_be, ih]
    have h2 : (256 : Nat) ^ w = 2 ^ (8 * w) := by
      rw [pow_mul]; norm_num
    have h3 : (2 : Nat) ^ (8 * (w + 1)) = 2 ^ (8 * w) * 256 := by
      rw [Nat.mul_add, pow_add]; norm_num
    rw [h2, h3, Nat.mod_mul]
    ring

theorem readU_be_of_lt {w x : Nat} (h : x < 2 ^ (8 * w)) : readU (be w x) = x := by
  rw [readU_be, Nat.mod_eq_of_lt h]

theorem atoi_digits2 (n : Nat) (h : n ≤ 99) :
    atoi [48 + n / 10, 48 + n % 10] = some (n : Int) := by
  have h1 : ¬ (48 + n / 10 = 43) := by omega
  have h2 : ¬ (48 + n / 10 = 45) := by omega
  have h3 : (48 + n / 10) ≤ 57 := by omega
  have h4 : (48 + n % 10) ≤ 57 := by omega
  simp [atoi, h1, h2, digitsVal, isDigit, h3, h4]
  omega

theorem atoi_digits3 (n : Nat) (h : n ≤ 999) :
    atoi [48 + n / 100, 48 + n / 10 % 10, 48 + n % 10] = some (n : Int) := by
  have h1 : ¬ (48 + n / 100 = 43) := by omega
  have h2 : ¬ (48 + n / 100 = 45) := by omega
  have h3 : (48 + n / 100) ≤ 57 := by omega
  have h4 : (48 + n / 10 % 10) ≤ 57 := by omega
  have h5 : (48 + n % 10) ≤ 57 := by omega
  simp [atoi, h1, h2, digitsVal, isDigit, h3, h4, h5]
  omega

theorem digits_foldl_lt (s : Bytes) : ∀ acc : Nat, s.all isDigit = true →
    s.foldl (fun a c => a * 10 + (c - 48)) acc < (acc + 1) * 10 ^ s.length := by
  induction s with
  | nil => intro acc _; simp
  | cons c t ih =>
    intro acc hall
    simp only [List.all_cons, Bool.and_eq_true] at hall
    have hc : c - 48 ≤ 9 := by
      have := hall.1
      simp [isDigit] at this
      omega
    have := ih (acc * 10 + (c - 48)) hall.2
    simp only [List.foldl_cons, List.length_cons]
    calc t.foldl (fun a c => a * 10 + (c - 48)) (acc * 10 + (c - 48))
        < (acc * 10 + (c - 48) + 1) * 10 ^ t.length := this
      _ ≤ (acc + 1) * 10 ^ (t.length + 1) := by
          rw [pow_succ]
          nlinarith [pow_pos (show (0:Nat) < 10 by norm_num) t.length]

theorem digitsVal_lt {s : Bytes} {n : Nat} (h : digitsVal s = some n) : n < 10 ^ s.length := by
  unfold digitsVal at h
  split at h
  · exact absurd h (by simp)
  · split at h
    · rename_i hall
      have := digits_foldl_lt s 0 hall
      simp only [Option.some.injEq] at h
      omega
    · exact absurd h (by simp)

theorem atoi_toNat_lt {s : Bytes} {l : Int} (h : atoi s = some l) : l.toNat < 10 ^ s.length := by
  cases s with
  | nil => simp [atoi] at h
  | cons c rest =>
    simp only [atoi] at h
    by_cases h43 : c = 43
    · rw [if_pos h43] at h
      cases hd : digitsVal rest with
      | none => rw [hd] at h; simp at h
      | some n =>
        rw [hd] at h
        have hl : ((n : Int)) = l := by simpa using h
        have hn := digitsVal_lt hd
        have hp : (10:Nat) ^ rest.length < 10 ^ (rest.length + 1) :=
          Nat.pow_lt_pow_succ (by norm_num)
        simp only [List.length_cons]
        omega
    · by_cases h45 : c = 45
      · rw [if_neg h43, if_pos h45] at h
        cases hd : digitsVal rest with
        | none => rw [hd] at h; simp at h
        | some n =>
          rw [hd] at h
          have hl : (-(n : Int)) = l := by simpa using h
          have hp : (0:Nat) < 10 ^ (c :: rest).length := pow_pos (by norm_num) _
          omega
      · rw [if_neg h43, if_neg h45] at h
        cases hd : digitsVal (c :: rest) with
        | none => rw [hd] at h; simp at h
        | some n =>
          rw [hd] at h
          have hl : ((n : Int)) = l := by simpa using h
          have hn := digitsVal_lt hd
          omega

end Iso8583

namespace Iso8583

theorem lookup_cons_eq (k : Nat) (v : Bytes) (t : List (Nat × Bytes)) :
    ((k, v) :: t).lookup k = some v := by
  simp [List.lookup]

theorem lookup_cons_ne {f k : Nat} (v : Bytes) (t : List (Nat × Bytes)) (h : ¬ f = k) :
    ((k, v) :: t).lookup f = t.lookup f := by
  have hbeq : (f == k) = false := by simpa using h
  simp [List.lookup, hbeq]

theorem lookup_isSome_mem {l : List (Nat × Bytes)} {f : Nat}
    (h : (l.lookup f).isSome = true) : ∃ v, (f, v) ∈ l := by
  induction l with
  | nil => simp [List.lookup] at h
  | cons q t ih =>
    obtain ⟨k, v⟩ := q
    by_cases hk : f = k
    · exact ⟨v, by rw [hk]; exact List.mem_cons_self _ _⟩
    · rw [lookup_cons_ne v t hk] at h
      obtain ⟨w, hw⟩ := ih h
      exact ⟨w, List.mem_cons_of_mem _ hw⟩

theorem mem_lookup_isSome {l : List (Nat × Bytes)} {f : Nat} {v : Bytes}
    (h : (f, v) ∈ l) : (l.lookup f).isSome = true := by
  induction l with
  | nil => simp at h
  | cons q t ih =>
    obtain ⟨k, w⟩ := q
    by_cases hk : f = k
    · subst hk; rw [lookup_cons_eq]; rfl
    · rw [lookup_cons_ne w t hk]
      rcases List.mem_cons.mp h with h1 | h2
      · exact absurd (congrArg Prod.fst h1) hk
      · exact ih h2

theorem any_pred_eq_lookup (l : List (Nat × Bytes)) (f : Nat) (g : Nat → Bool)
    (hg : ∀ q ∈ l, g q.1 = (q.1 == f)) :
    (l.any fun p => g p.1) = (l.lookup f).isSome := by
  induction l with
  | nil => simp [List.lookup]
  | cons q t ih =>
    obtain ⟨k, v⟩ := q
    have hq := hg (k, v) (List.mem_cons_self _ _)
    have iht := ih fun p hp => hg p (List.mem_cons_of_mem _ hp)
    by_cases hk : k = f
    · subst hk
      rw [List.any_cons, lookup_cons_eq]
      simp only at hq
      simp [hq]
    · have hk' : ¬ (f = k) := fun hh => hk hh.symm
      rw [List.any_cons, lookup_cons_ne v t hk']
      have hgk : g k = false := by
        simp only at hq
        rw [hq]
        simpa using hk
      simp [hgk, iht]

theorem bitfold_testBit (l : List (Nat × Bytes)) : ∀ (ps : Nat × Nat) (i : Nat),
    ((l.foldl (fun ps p => setBit ps p.1) ps).1.testBit i
        = (ps.1.testBit i || l.any fun p => decide (p.1 ≤ 64) && decide (64 - p.1 = i)))
    ∧ ((l.foldl (fun ps p => setBit ps p.1) ps).2.testBit i
        = (ps.2.testBit i || l.any fun p => decide (64 < p.1) && decide (128 - p.1 = i))) := by
  induction l with
  | nil => intro ps i; simp
  | cons q t ih =>
    intro ps i
    simp only [List.foldl_cons, List.any_cons]
    constructor
    · rw [(ih (setBit ps q.1) i).1]
      by_cases hq : q.1 ≤ 64
      · have hset : setBit ps q.1 = (ps.1 ||| 2 ^ (64 - q.1), ps.2) := by simp [setBit, hq]
        rw [hset, Nat.testBit_or, Nat.testBit_two_pow, decide_eq_true hq, Bool.true_and,
          Bool.or_assoc]
      · have hset : setBit ps q.1 = (ps.1, ps.2 ||| 2 ^ (128 - q.1)) := by simp [setBit, hq]
        have hd : decide (q.1 ≤ 64) = false := by simpa using hq
        rw [hset, hd, Bool.false_and, Bool.false_or]
    · rw [(ih (setBit ps q.1) i).2]
      by_cases hq : q.1 ≤ 64
      · have hset : setBit ps q.1 = (ps.1 ||| 2 ^ (64 - q.1), ps.2) := by simp [setBit, hq]
        have hd : decide (64 < q.1) = false := by simpa using (by omega : ¬ 64 < q.1)
        rw [hset, hd, Bool.false_and, Bool.false_or]
      · have h64 : 64 < q.1 := by omega
        have hset : setBit ps q.1 = (ps.1, ps.2 ||| 2 ^ (128 - q.1)) := by simp [setBit, hq]
        rw [hset, Nat.testBit_or, Nat.testBit_two_pow, decide_eq_true h64, Bool.true_and,
          Bool.or_assoc]

theorem bitfold_lt (l : List (Nat × Bytes)) : ∀ ps : Nat × Nat,
    (∀ q ∈ l, 1 ≤ q.1) → ps.1 < 2 ^ 64 → ps.2 < 2 ^ 64 →
    (l.foldl (fun ps p => setBit ps p.1) ps).1 < 2 ^ 64 ∧
    (l.foldl (fun ps p => setBit ps p.1) ps).2 < 2 ^ 64 := by
  induction l with
  | nil => intro ps _ h1 h2; exact ⟨h1, h2⟩
  | cons q t ih =>
    intro ps hk h1 h2
    have hq1 : 1 ≤ q.1 := hk q (List.mem_cons_self _ _)
    have hkt : ∀ p ∈ t, 1 ≤ p.1 := fun p hp => hk p (List.mem_cons_of_mem _ hp)
    simp only [List.foldl_cons]
    apply ih _ hkt
    · by_cases hq : q.1 ≤ 64
      · have : (2:Nat) ^ (64 - q.1) < 2 ^ 64 :=
          Nat.pow_lt_pow_right (by norm_num) (by omega)
        simpa [setBit, hq] using Nat.or_lt_two_pow h1 this
      · simpa [setBit, hq] using h1
    · by_cases hq : q.1 ≤ 64
      · simpa [setBit, hq] using h2
      · have : (2:Nat) ^ (128 - q.1) < 2 ^ 64 :=
          Nat.pow_lt_pow_right (by norm_num) (by omega)
        simpa [setBit, hq] using Nat.or_lt_two_pow h2 this

theorem bitmaps_ok_elim {m : Message} {pr se : Nat} (h : m.bitmaps = .ok (pr, se)) :
    (∀ q ∈ m.Fields, 2 ≤ q.1 ∧ q.1 ≤ 128) ∧
    (pr, se) = m.Fields.foldl (fun ps p => setBit ps p.1) (0, 0) := by
  unfold Message.bitmaps at h
  cases hf : (m.Fields.map Prod.fst).find? badField with
  | some f => rw [hf] at h; exact absurd h (by simp)
  | none =>
    rw [hf] at h
    refine ⟨?_, by simpa using (Except.ok.inj h).symm⟩
    intro q hq
    have := List.find?_eq_none.mp hf q.1 (List.mem_map_of_mem Prod.fst hq)
    simp [badField] at this
    omega


theorem beq_eq_decide (a b : Nat) : (a == b) = decide (a = b) := by
  by_cases h : a = b <;> simp [h]

theorem bitmaps_char {m : Message} {pr se : Nat} (h : m.bitmaps = .ok (pr, se)) :
    (∀ f, 2 ≤ f → f ≤ 64 → pr.testBit (64 - f) = (m.get f).isSome) ∧
    (∀ f, 65 ≤ f → f ≤ 128 → se.testBit (128 - f) = (m.get f).isSome) ∧
    pr.testBit 63 = false ∧ pr < 2 ^ 64 ∧ se < 2 ^ 64 ∧
    (se = 0 ↔ ∀ q ∈ m.Fields, q.1 ≤ 64) := by
  obtain ⟨hkeys, hfold⟩ := bitmaps_ok_elim h
  have hpr : pr = (m.Fields.foldl (fun ps p => setBit ps p.1) (0, 0)).1 := by
    rw [← hfold]
  have hse : se = (m.Fields.foldl (fun ps p => setBit ps p.1) (0, 0)).2 := by
    rw [← hfold]
  have hlt := bitfold_lt m.Fields (0, 0) (fun q hq => by have := hkeys q hq; omega)
    (by positivity) (by positivity)
  refine ⟨?_, ?_, ?_, hpr ▸ hlt.1, hse ▸ hlt.2, ?_⟩
  · intro f hf2 hf
    rw [hpr, (bitfold_testBit m.Fields (0, 0) (64 - f)).1]
    simp only [Nat.zero_testBit, Bool.false_or]
    refine any_pred_eq_lookup m.Fields f
      (fun k => decide (k ≤ 64) && decide (64 - k = 64 - f)) ?_
    intro q hq
    have hb := hkeys q hq
    show (decide (q.1 ≤ 64) && decide (64 - q.1 = 64 - f)) = (q.1 == f)
    rw [← Bool.decide_and, beq_eq_decide]
    exact decide_eq_decide.mpr (by omega)
  · intro f hf2 hf
    rw [hse, (bitfold_testBit m.Fields (0, 0) (128 - f)).2]
    simp only [Nat.zero_testBit, Bool.false_or]
    refine any_pred_eq_lookup m.Fields f
      (fun k => decide (64 < k) && decide (128 - k = 128 - f)) ?_
    intro q hq
    have hb := hkeys q hq
    show (decide (64 < q.1) && decide (128 - q.1 = 128 - f)) = (q.1 == f)
    rw [← Bool.decide_and, beq_eq_decide]
    exact decide_eq_decide.mpr (by omega)
  · rw [hpr, (bitfold_testBit m.Fields (0, 0) 63).1]
    simp only [Nat.zero_testBit, Bool.false_or]
    apply List.any_eq_false.mpr
    intro q hq
    have hb := hkeys q hq
    rw [← Bool.decide_and]
    simp only [decide_eq_true_eq]
    omega
  · constructor
    · intro h0 q hq
      by_contra hgt
      have hb := hkeys q hq
      have hbit : se.testBit (128 - q.1) = true := by
        rw [hse, (bitfold_testBit m.Fields (0, 0) (128 - q.1)).2]
        simp only [Nat.zero_testBit, Bool.false_or]
        apply List.any_eq_true.mpr
        exact ⟨q, hq, by rw [← Bool.decide_and]; exact decide_eq_true (by omega)⟩
      rw [h0] at hbit
      simp [Nat.zero_testBit] at hbit
    · intro hall
      rw [hse]
      apply Nat.eq_of_testBit_eq
      intro i
      rw [(bitfold_testBit m.Fields (0, 0) i).2]
      simp only [Nat.zero_testBit, Bool.false_or]
      apply List.any_eq_false.mpr
      intro q hq
      have := hall q hq
      rw [← Bool.decide_and]
      simp only [decide_eq_true_eq]
      omega

theorem present_of_bitmaps {m : Message} {pr se : Nat} (h : m.bitmaps = .ok (pr, se))
    {f : Nat} (hf2 : 2 ≤ f) (hf : f ≤ 128) :
    present (if se ≠ 0 then pr ||| 2 ^ 63 else pr) se f = (m.get f).isSome := by
  obtain ⟨h1, h2, _⟩ := bitmaps_char h
  by_cases hle : f ≤ 64
  · unfold present
    rw [if_pos hle]
    by_cases hz : se ≠ 0
    · rw [if_pos hz, Nat.testBit_or, Nat.testBit_two_pow]
      have hd : decide (63 = 64 - f) = false := by
        simp only [decide_eq_false_iff_not]
        omega
      rw [hd, Bool.or_false]
      exact h1 f hf2 hle
    · rw [if_neg hz]
      exact h1 f hf2 hle
  · unfold present
    rw [if_neg hle]
    exact h2 f (by omega) hf

end Iso8583

namespace Iso8583

/-- The byte encoding contributed by field `f` of `m` (empty when absent;
only meaningful when `packField` succeeds). -/
def encOf (m : Message) (f : Nat) : Bytes :=
  match m.get f with
  | none => []
  | some v =>
    match packField f v with
    | .ok e => e
    | .error _ => []

/-- Per-field cap on the encoded lengthemitted by `packField`. -/
def capF (f : Nat) : Nat :=
  if f = 7 then 10 else if f = 11 then 6 else if f = 48 then 1002
  else if f = 70 then 3 else if f = 102 then 101 else 0

theorem isOk_iff {r : Except Err Bytes} : isOk r = true ↔ ∃ e, r = .ok e := by
  cases r <;> simp [isOk]

theorem packFields_ok_of (m : Message) :
    ∀ fs : List Nat, (∀ f ∈ fs, ∀ v, m.get f = some v → isOk (packField f v) = true) →
    packFields m fs = .ok ((fs.map (encOf m)).flatten) := by
  intro fs
  induction fs with
  | nil => intro _; simp [packFields]
  | cons f t ih =>
    intro hok
    have iht := ih fun g hg v hv => hok g (List.mem_cons_of_mem _ hg) v hv
    cases hg : m.get f with
    | none => simp [packFields, hg, iht, encOf]
    | some v =>
      obtain ⟨e, he⟩ := isOk_iff.mp (hok f (List.mem_cons_self _ _) v hg)
      simp [packFields, hg, he, iht, encOf]

theorem packFields_ok_elim (m : Message) :
    ∀ (fs : List Nat) (out : Bytes), packFields m fs = .ok out →
    out = (fs.map (encOf m)).flatten ∧
    (∀ f ∈ fs, ∀ v, m.get f = some v → isOk (packField f v) = true) := by
  intro fs
  induction fs with
  | nil =>
    intro out h
    have h0 : ([] : Bytes) = out := by simpa [packFields] using h
    subst h0
    simp
  | cons f t ih =>
    intro out h
    cases hg : m.get f with
    | none =>
      simp only [packFields, hg] at h
      obtain ⟨ho, hv⟩ := ih out h
      refine ⟨by simp [encOf, hg, ho], ?_⟩
      intro g hgm v hvv
      rcases List.mem_cons.mp hgm with rfl | hgt
      · rw [hg] at hvv; exact absurd hvv (by simp)
      · exact hv g hgt v hvv
    | some v =>
      cases he : packField f v with
      | error e0 => simp [packFields, hg, he] at h
      | ok e =>
        cases hr : packFields m t with
        | error e1 => simp [packFields, hg, he, hr] at h
        | ok r =>
          simp only [packFields, hg, he, hr] at h
          have hout : e ++ r = out := by simpa using h
          obtain ⟨ho, hv⟩ := ih r hr
          refine ⟨by simp [encOf, hg, he, ← hout, ho], ?_⟩
          intro g hgm w hvv
          rcases List.mem_cons.mp hgm with rfl | hgt
          · rw [hg] at hvv
            have hvw : v = w := Option.some.inj hvv
            subst hvw
            rw [isOk_iff]
            exact ⟨e, he⟩
          · exact hv g hgt w hvv

theorem packField_length_le {f : Nat} {v e : Bytes} (h : packField f v = .ok e) :
    e.length ≤ capF f := by
  by_cases h7 : f = 7
  · subst h7
    by_cases hv : v.length = 10
    · have hp : packField 7 v = .ok v := by simp [packField, hv]
      rw [hp] at h
      have hve := Except.ok.inj h
      simp [capF, ← hve, hv]
    · have hp : packField 7 v = .error (.fixedLen 7) := by simp [packField, hv]
      rw [hp] at h
      exact absurd h (by simp)
  · by_cases h11 : f = 11
    · subst h11
      by_cases hv : v.length = 6
      · have hp : packField 11 v = .ok v := by simp [packField, hv]
        rw [hp] at h
        have hve := Except.ok.inj h
        simp [capF, ← hve, hv]
      · have hp : packField 11 v = .error (.fixedLen 11) := by simp [packField, hv]
        rw [hp] at h
        exact absurd h (by simp)
    · by_cases h48 : f = 48
      · subst h48
        by_cases hv : v.length > 999
        · have hp : packField 48 v = .error .lllvarTooLong := by
            simp [packField, packLLLVAR, hv]
          rw [hp] at h
          exact absurd h (by simp)
        · have hp : packField 48 v =
              .ok ([48 + v.length / 100, 48 + v.length / 10 % 10, 48 + v.length % 10] ++ v) := by
            simp [packField, packLLLVAR, hv]
          rw [hp] at h
          have hve := Except.ok.inj h
          simp [capF, ← hve]
          omega
      · by_cases h70 : f = 70
        · subst h70
          by_cases hv : v.length = 3
          · have hp : packField 70 v = .ok v := by simp [packField, hv]
            rw [hp] at h
            have hve := Except.ok.inj h
            simp [capF, ← hve, hv]
          · have hp : packField 70 v = .error (.fixedLen 70) := by simp [packField, hv]
            rw [hp] at h
            exact absurd h (by simp)
        · by_cases h102 : f = 102
          · subst h102
            by_cases hv : v.length > 99
            · have hp : packField 102 v = .error .llvarTooLong := by
                simp [packField, packLLVAR, hv]
              rw [hp] at h
              exact absurd h (by simp)
            · have hp : packField 102 v =
                  .ok ([48 + v.length / 10, 48 + v.length % 10] ++ v) := by
                simp [packField, packLLVAR, hv]
              rw [hp] at h
              have hve := Except.ok.inj h
              simp [capF, ← hve]
              omega
          · have hp : packField f v = .error (.notImplemented f) := by
              simp [packField, h7, h11, h48, h70, h102]
            rw [hp] at h
            exact absurd h (by simp)

theorem encOf_length_le (m : Message) (f : Nat) : (encOf m f).length ≤ capF f := by
  unfold encOf
  cases hg : m.get f with
  | none => simp
  | some v =>
    cases he : packField f v with
    | error e0 => simp [he]
    | ok e =>
      simp only [he]
      exact packField_length_le he

theorem flatten_encOf_length_le (m : Message) (fs : List Nat) :
    ((fs.map (encOf m)).flatten).length ≤ (fs.map capF).sum := by
  rw [List.length_flatten, List.map_map]
  exact List.sum_le_sum fun f _ => encOf_length_le m f

set_option maxRecDepth 4000 in
theorem capF_sum : ((fieldRange.map capF).sum) = 1122 := by decide

end Iso8583


namespace Iso8583

theorem readFixed_append (fno w : Nat) (pre v rest : Bytes) (hw : v.length = w) :
    readFixed fno w (pre ++ v ++ rest) pre.length = .ok (v, pre.length + w) := by
  unfold readFixed
  have hlen : (pre ++ v ++ rest).length = pre.length + (v.length + rest.length) := by
    simp
  rw [if_neg (by omega)]
  have hdrop : (pre ++ v ++ rest).drop pre.length = v ++ rest := by
    rw [List.append_assoc]
    exact List.drop_left' rfl
  rw [hdrop, List.take_left' hw]

theorem unpackLLVAR_eq_of_atoi (b : Bytes) (off : Nat) (l : Int)
    (hoff : ¬ (off + 2 > b.length)) (ha : atoi ((b.drop off).take 2) = some l) :
    unpackLLVAR b off =
      if (off : Int) + 2 + l > (b.length : Int) then .err .truncLLVal
      else if l < 0 then .panicked
      else .ok ((b.drop (off + 2)).take l.toNat, off + 2 + l.toNat) := by
  unfold unpackLLVAR
  rw [if_neg hoff, ha]

theorem unpackLLLVAR_eq_of_atoi (b : Bytes) (off : Nat) (l : Int)
    (hoff : ¬ (off + 3 > b.length)) (ha : atoi ((b.drop off).take 3) = some l) :
    unpackLLLVAR b off =
      if (off : Int) + 3 + l > (b.length : Int) then .err .truncLLLVal
      else if l < 0 then .panicked
      else .ok ((b.drop (off + 3)).take l.toNat, off + 3 + l.toNat) := by
  unfold unpackLLLVAR
  rw [if_neg hoff, ha]

theorem unpackLLVAR_append (pre v rest : Bytes) (hv : v.length ≤ 99) :
    unpackLLVAR (pre ++ ([48 + v.length / 10, 48 + v.length % 10] ++ v) ++ rest) pre.length
      = .ok (v, pre.length + (2 + v.length)) := by
  have hlen : (pre ++ ([48 + v.length / 10, 48 + v.length % 10] ++ v) ++ rest).length
      = pre.length + (2 + (v.length + rest.length)) := by
    simp
    omega
  have hdrop : (pre ++ ([48 + v.length / 10, 48 + v.length % 10] ++ v) ++ rest).drop pre.length
      = ([48 + v.length / 10, 48 + v.length % 10] ++ v) ++ rest := by
    rw [List.append_assoc]
    exact List.drop_left' rfl
  have htake : ((([48 + v.length / 10, 48 + v.length % 10] ++ v) ++ rest)).take 2
      = [48 + v.length / 10, 48 + v.length % 10] := by
    rw [List.append_assoc]
    exact List.take_left' (by simp)
  rw [unpackLLVAR_eq_of_atoi _ _ (v.length : Int) (by omega)
    (by rw [hdrop, htake]; exact atoi_digits2 v.length hv)]
  rw [if_neg (by omega)]
  rw [if_neg (by simp)]
  have hdrop2 : (pre ++ ([48 + v.length / 10, 48 + v.length % 10] ++ v) ++ rest).drop
      (pre.length + 2) = v ++ rest := by
    have hp2 : pre ++ ([48 + v.length / 10, 48 + v.length % 10] ++ v) ++ rest
        = (pre ++ [48 + v.length / 10, 48 + v.length % 10]) ++ (v ++ rest) := by
      simp [List.append_assoc]
    rw [hp2]
    exact List.drop_left' (by simp)
  rw [hdrop2, Int.toNat_natCast, List.take_left]
  have hoffs : pre.length + 2 + v.length = pre.length + (2 + v.length) := by omega
  rw [hoffs]

theorem unpackLLLVAR_append (pre v rest : Bytes) (hv : v.length ≤ 999) :
    unpackLLLVAR
      (pre ++ ([48 + v.length / 100, 48 + v.length / 10 % 10, 48 + v.length % 10] ++ v) ++ rest)
      pre.length = .ok (v, pre.length + (3 + v.length)) := by
  have hlen : (pre ++ ([48 + v.length / 100, 48 + v.length / 10 % 10, 48 + v.length % 10] ++ v)
      ++ rest).length = pre.length + (3 + (v.length + rest.length)) := by
    simp
    omega
  have hdrop : (pre ++ ([48 + v.length / 100, 48 + v.length / 10 % 10, 48 + v.length % 10] ++ v)
      ++ rest).drop pre.length
      = ([48 + v.length / 100, 48 + v.length / 10 % 10, 48 + v.length % 10] ++ v) ++ rest := by
    rw [List.append_assoc]
    exact List.drop_left' rfl
  have htake : ((([48 + v.length / 100, 48 + v.length / 10 % 10, 48 + v.length % 10] ++ v)
      ++ rest)).take 3 = [48 + v.length / 100, 48 + v.length / 10 % 10, 48 + v.length % 10] := by
    rw [List.append_assoc]
    exact List.take_left' (by simp)
  rw [unpackLLLVAR_eq_of_atoi _ _ (v.length : Int) (by omega)
    (by rw [hdrop, htake]; exact atoi_digits3 v.length hv)]
  rw [if_neg (by omega)]
  rw [if_neg (by simp)]
  have hdrop2 : (pre ++ ([48 + v.length / 100, 48 + v.length / 10 % 10, 48 + v.length % 10] ++ v)
      ++ rest).drop (pre.length + 3) = v ++ rest := by
    have hp2 : pre ++ ([48 + v.length / 100, 48 + v.length / 10 % 10, 48 + v.length % 10] ++ v)
        ++ rest = (pre ++ [48 + v.length / 100, 48 + v.length / 10 % 10, 48 + v.length % 10])
        ++ (v ++ rest) := by
      simp [List.append_assoc]
    rw [hp2]
    exact List.drop_left' (by simp)
  rw [hdrop2, Int.toNat_natCast, List.take_left]
  have hoffs : pre.length + 3 + v.length = pre.length + (3 + v.length) := by omega
  rw [hoffs]

end Iso8583

namespace Iso8583

theorem unpackField_of_packField {f : Nat} {v e : Bytes} (pre rest : Bytes)
    (h : packField f v = .ok e) :
    unpackField f (pre ++ e ++ rest) pre.length = .ok (v, pre.length + e.length) := by
  by_cases h7 : f = 7
  · subst h7
    by_cases hv : v.length = 10
    · have hp : packField 7 v = .ok v := by simp [packField, hv]
      rw [hp] at h
      obtain rfl := Except.ok.inj h
      rw [hv]
      exact readFixed_append 7 10 pre v rest hv
    · have hp : packField 7 v = .error (.fixedLen 7) := by simp [packField, hv]
      rw [hp] at h
      exact absurd h (by simp)
  · by_cases h11 : f = 11
    · subst h11
      by_cases hv : v.length = 6
      · have hp : packField 11 v = .ok v := by simp [packField, hv]
        rw [hp] at h
        obtain rfl := Except.ok.inj h
        rw [hv]
        exact readFixed_append 11 6 pre v rest hv
      · have hp : packField 11 v = .error (.fixedLen 11) := by simp [packField, hv]
        rw [hp] at h
        exact absurd h (by simp)
    · by_cases h48 : f = 48
      · subst h48
        by_cases hv : v.length > 999
        · have hp : packField 48 v = .error .lllvarTooLong := by
            simp [packField, packLLLVAR, hv]
          rw [hp] at h
          exact absurd h (by simp)
        · have hp : packField 48 v =
              .ok ([48 + v.length / 100, 48 + v.length / 10 % 10, 48 + v.length % 10] ++ v) := by
            simp [packField, packLLLVAR, hv]
          rw [hp] at h
          obtain rfl := Except.ok.inj h
          have hel : ([48 + v.length / 100, 48 + v.length / 10 % 10, 48 + v.length % 10]
              ++ v).length = 3 + v.length := by simp; omega
          rw [hel]
          exact unpackLLLVAR_append pre v rest (by omega)
      · by_cases h70 : f = 70
        · subst h70
          by_cases hv : v.length = 3
          · have hp : packField 70 v = .ok v := by simp [packField, hv]
            rw [hp] at h
            obtain rfl := Except.ok.inj h
            rw [hv]
            exact readFixed_append 70 3 pre v rest hv
          · have hp : packField 70 v = .error (.fixedLen 70) := by simp [packField, hv]
            rw [hp] at h
            exact absurd h (by simp)
        · by_cases h102 : f = 102
          · subst h102
            by_cases hv : v.length > 99
            · have hp : packField 102 v = .error .llvarTooLong := by
                simp [packField, packLLVAR, hv]
              rw [hp] at h
              exact absurd h (by simp)
            · have hp : packField 102 v =
                  .ok ([48 + v.length / 10, 48 + v.length % 10] ++ v) := by
                simp [packField, packLLVAR, hv]
              rw [hp] at h
              obtain rfl := Except.ok.inj h
              have hel : ([48 + v.length / 10, 48 + v.length % 10] ++ v).length
                  = 2 + v.length := by simp; omega
              rw [hel]
              have hgoal := unpackLLVAR_append pre v rest (by omega)
              show unpackLLVAR _ _ = _
              exact hgoal
          · have hp : packField f v = .error (.notImplemented f) := by
              simp [packField, h7, h11, h48, h70, h102]
            rw [hp] at h
            exact absurd h (by simp)

/-- The association list of present fields of `m` along the field numbers `fs`,
in list order: this is the field map `Unpack` rebuilds. -/
def fieldsAlong (m : Message) (fs : List Nat) : List (Nat × Bytes) :=
  fs.filterMap fun f => (m.get f).map fun v => (f, v)

theorem lookup_fieldsAlong (m : Message) :
    ∀ (fs : List Nat) (f : Nat),
    (fieldsAlong m fs).lookup f = if f ∈ fs then m.get f else none := by
  intro fs
  induction fs with
  | nil => intro f; simp [fieldsAlong]
  | cons g t ih =>
    intro f
    cases hg : m.get g with
    | none =>
      have hfa : fieldsAlong m (g :: t) = fieldsAlong m t := by
        simp [fieldsAlong, hg]
      rw [hfa, ih f]
      by_cases hfg : f = g
      · subst hfg
        by_cases hft : f ∈ t
        · simp [hft]
        · simp [hft, hg]
      · simp [List.mem_cons, hfg]
    | some v =>
      have hfa : fieldsAlong m (g :: t) = (g, v) :: fieldsAlong m t := by
        simp [fieldsAlong, hg]
      rw [hfa]
      by_cases hfg : f = g
      · subst hfg
        rw [lookup_cons_eq]
        simp [hg]
      · rw [lookup_cons_ne _ _ hfg, ih f]
        simp [List.mem_cons, hfg]

end Iso8583

namespace Iso8583

theorem unpackFields_encs (m : Message) (pr se : Nat) (post : Bytes) :
    ∀ (fs : List Nat) (pre : Bytes),
    (∀ f ∈ fs, present pr se f = (m.get f).isSome) →
    (∀ f ∈ fs, ∀ v, m.get f = some v → isOk (packField f v) = true) →
    unpackFields (pre ++ (fs.map (encOf m)).flatten ++ post) pr se fs pre.length
      = .ok (fieldsAlong m fs, pre.length + ((fs.map (encOf m)).flatten).length) := by
  intro fs
  induction fs with
  | nil =>
    intro pre _ _
    simp [unpackFields, fieldsAlong]
  | cons f t ih =>
    intro pre hp hok
    have hpf := hp f (List.mem_cons_self _ _)
    have hpt := fun g hg => hp g (List.mem_cons_of_mem _ hg)
    have hokt := fun g hg v hv => hok g (List.mem_cons_of_mem _ hg) v hv
    cases hg : m.get f with
    | none =>
      have hpres : present pr se f = false := by rw [hpf, hg]; rfl
      have henc : encOf m f = [] := by simp [encOf, hg]
      have hflat : ((f :: t).map (encOf m)).flatten = (t.map (encOf m)).flatten := by
        simp [henc]
      have hfa : fieldsAlong m (f :: t) = fieldsAlong m t := by simp [fieldsAlong, hg]
      rw [hflat, hfa]
      rw [unpackFields, hpres]
      have hred : (if (false = true) then
          (match unpackField f (pre ++ (t.map (encOf m)).flatten ++ post) pre.length with
          | .ok (v, off2) =>
            match unpackFields (pre ++ (t.map (encOf m)).flatten ++ post) pr se t off2 with
            | .ok (l, o) => Res.ok ((f, v) :: l, o)
            | .err e => .err e
            | .panicked => .panicked
          | .err e => .err e
          | .panicked => .panicked)
          else unpackFields (pre ++ (t.map (encOf m)).flatten ++ post) pr se t pre.length)
          = unpackFields (pre ++ (t.map (encOf m)).flatten ++ post) pr se t pre.length := by
        rfl
      rw [hred]
      exact ih pre hpt hokt
    | some v =>
      have hpres : present pr se f = true := by rw [hpf, hg]; rfl
      obtain ⟨e, he⟩ := isOk_iff.mp (hok f (List.mem_cons_self _ _) v hg)
      have henc : encOf m f = e := by simp [encOf, hg, he]
      have hflat : ((f :: t).map (encOf m)).flatten = e ++ (t.map (encOf m)).flatten := by
        simp [henc]
      have hfa : fieldsAlong m (f :: t) = (f, v) :: fieldsAlong m t := by
        simp [fieldsAlong, hg]
      have hP1 : pre ++ ((f :: t).map (encOf m)).flatten ++ post
          = pre ++ e ++ (t.map (encOf m)).flatten ++ post := by
        rw [hflat]
        simp [List.append_assoc]
      rw [hP1, hfa, hflat]
      rw [unpackFields, hpres]
      rw [if_pos rfl]
      have hup := unpackField_of_packField pre ((t.map (encOf m)).flatten ++ post) he
      rw [← List.append_assoc] at hup
      simp only [hup]
      have hih := ih (pre ++ e) hpt hokt
      rw [List.length_append] at hih
      simp only [hih]
      simp [List.length_append, Nat.add_assoc]

end Iso8583

namespace Iso8583

theorem prF_lt {pr : Nat} (h : pr < 2 ^ 64) : pr ||| 2 ^ 63 < 2 ^ 64 :=
  Nat.or_lt_two_pow h (by norm_num)

set_option maxRecDepth 8000 in
theorem unpack_assemble_sec {m : Message} {pr se : Nat}
    (hmti : m.MTI.length = 4) (hbm : m.bitmaps = .ok (pr, se)) (hse : se ≠ 0)
    (hok : ∀ f ∈ fieldRange, ∀ v, m.get f = some v → isOk (packField f v) = true) :
    Unpack (assemble m.MTI pr se ((fieldRange.map (encOf m)).flatten))
      = .ok ⟨m.MTI, fieldsAlong m fieldRange⟩ := by
  obtain ⟨hc1, hc2, hbit63, hprlt, hselt, hse0⟩ := bitmaps_char hbm
  set fb := (fieldRange.map (encOf m)).flatten with hfb
  have hfbl : fb.length ≤ 1122 := by
    have h := flatten_encOf_length_le m fieldRange
    rw [capF_sum] at h
    exact h
  have hasm : assemble m.MTI pr se fb
      = be 2 (m.MTI ++ be 8 (pr ||| 2 ^ 63) ++ be 8 se ++ fb).length
        ++ (m.MTI ++ be 8 (pr ||| 2 ^ 63) ++ be 8 se ++ fb) := by
    simp [assemble, hse]
  rw [hasm]
  set msg := m.MTI ++ be 8 (pr ||| 2 ^ 63) ++ be 8 se ++ fb with hmsg
  have hmsglen : msg.length = 20 + fb.length := by
    rw [hmsg]
    simp [length_be, hmti]
    omega
  have houtlen : (be 2 msg.length ++ msg).length = 2 + msg.length := by
    simp [length_be]
  have htake2 : (be 2 msg.length ++ msg).take 2 = be 2 msg.length :=
    List.take_left' (length_be 2 _)
  have hread2 : readU (be 2 msg.length) = msg.length := by
    apply readU_be_of_lt
    norm_num
    omega
  have hdrop2 : (be 2 msg.length ++ msg).drop 2 = msg := List.drop_left' (length_be 2 _)
  have htakemsg : msg.take msg.length = msg := List.take_length ..
  have htake4 : msg.take 4 = m.MTI := by
    rw [hmsg]
    have h4 : m.MTI ++ be 8 (pr ||| 2 ^ 63) ++ be 8 se ++ fb
        = m.MTI ++ (be 8 (pr ||| 2 ^ 63) ++ (be 8 se ++ fb)) := by
      simp [List.append_assoc]
    rw [h4]
    exact List.take_left' hmti
  have hdrop4 : msg.drop 4 = be 8 (pr ||| 2 ^ 63) ++ (be 8 se ++ fb) := by
    rw [hmsg]
    have h4 : m.MTI ++ be 8 (pr ||| 2 ^ 63) ++ be 8 se ++ fb
        = m.MTI ++ (be 8 (pr ||| 2 ^ 63) ++ (be 8 se ++ fb)) := by
      simp [List.append_assoc]
    rw [h4]
    exact List.drop_left' hmti
  have htake8 : (be 8 (pr ||| 2 ^ 63) ++ (be 8 se ++ fb)).take 8 = be 8 (pr ||| 2 ^ 63) :=
    List.take_left' (length_be 8 _)
  have hreadpr : readU (be 8 (pr ||| 2 ^ 63)) = pr ||| 2 ^ 63 :=
    readU_be_of_lt (by norm_num; exact prF_lt hprlt)
  have htb63 : (pr ||| 2 ^ 63).testBit 63 = true := by
    rw [Nat.testBit_or, Nat.testBit_two_pow]
    simp
  have hdrop12 : msg.drop 12 = be 8 se ++ fb := by
    rw [hmsg]
    have h12 : m.MTI ++ be 8 (pr ||| 2 ^ 63) ++ be 8 se ++ fb
        = (m.MTI ++ be 8 (pr ||| 2 ^ 63)) ++ (be 8 se ++ fb) := by
      simp [List.append_assoc]
    rw [h12]
    exact List.drop_left' (by simp [length_be, hmti])
  have htakese : (be 8 se ++ fb).take 8 = be 8 se := List.take_left' (length_be 8 _)
  have hreadse : readU (be 8 se) = se := readU_be_of_lt (by norm_num; exact hselt)
  have hpresent : ∀ f ∈ fieldRange, present (pr ||| 2 ^ 63) se f = (m.get f).isSome := by
    intro f hfm
    have hx := List.mem_range'_1.mp hfm
    have := present_of_bitmaps hbm (f := f) (by omega) (by omega)
    rw [if_pos hse] at this
    exact this
  have hloop := unpackFields_encs m (pr ||| 2 ^ 63) se [] fieldRange
    (m.MTI ++ be 8 (pr ||| 2 ^ 63) ++ be 8 se) hpresent hok
  rw [List.append_nil, ← hfb] at hloop
  have hpre20 : (m.MTI ++ be 8 (pr ||| 2 ^ 63) ++ be 8 se).length = 20 := by
    simp [length_be, hmti]
  rw [hpre20] at hloop
  rw [Unpack]
  rw [if_neg (by omega)]
  rw [htake2, hread2]
  rw [if_neg (by omega)]
  rw [hdrop2, htakemsg]
  rw [if_neg (by omega)]
  rw [hdrop4, htake8, hreadpr, htake4]
  rw [if_pos htb63]
  rw [if_neg (by omega)]
  rw [hdrop12, htakese, hreadse]
  rw [unpackRest]
  rw [← hmsg] at hloop
  simp only [hloop]
  rw [if_neg (by omega)]

end Iso8583

namespace Iso8583

set_option maxRecDepth 8000 in
theorem unpack_assemble_prim {m : Message} {pr : Nat}
    (hmti : m.MTI.length = 4) (hbm : m.bitmaps = .ok (pr, 0))
    (hok : ∀ f ∈ fieldRange, ∀ v, m.get f = some v → isOk (packField f v) = true) :
    Unpack (assemble m.MTI pr 0 ((fieldRange.map (encOf m)).flatten))
      = .ok ⟨m.MTI, fieldsAlong m fieldRange⟩ := by
  obtain ⟨hc1, hc2, hbit63, hprlt, hselt, hse0⟩ := bitmaps_char hbm
  set fb := (fieldRange.map (encOf m)).flatten with hfb
  have hfbl : fb.length ≤ 1122 := by
    have h := flatten_encOf_length_le m fieldRange
    rw [capF_sum] at h
    exact h
  have hasm : assemble m.MTI pr 0 fb
      = be 2 (m.MTI ++ be 8 pr ++ fb).length ++ (m.MTI ++ be 8 pr ++ fb) := by
    simp [assemble]
  rw [hasm]
  set msg := m.MTI ++ be 8 pr ++ fb with hmsg
  have hmsglen : msg.length = 12 + fb.length := by
    rw [hmsg]
    simp [length_be, hmti]
    omega
  have houtlen : (be 2 msg.length ++ msg).length = 2 + msg.length := by
    simp [length_be]
  have htake2 : (be 2 msg.length ++ msg).take 2 = be 2 msg.length :=
    List.take_left' (length_be 2 _)
  have hread2 : readU (be 2 msg.length) = msg.length := by
    apply readU_be_of_lt
    norm_num
    omega
  have hdrop2 : (be 2 msg.length ++ msg).drop 2 = msg := List.drop_left' (length_be 2 _)
  have htakemsg : msg.take msg.length = msg := List.take_length ..
  have htake4 : msg.take 4 = m.MTI := by
    rw [hmsg]
    have h4 : m.MTI ++ be 8 pr ++ fb = m.MTI ++ (be 8 pr ++ fb) := by
      simp [List.append_assoc]
    rw [h4]
    exact List.take_left' hmti
  have hdrop4 : msg.drop 4 = be 8 pr ++ fb := by
    rw [hmsg]
    have h4 : m.MTI ++ be 8 pr ++ fb = m.MTI ++ (be 8 pr ++ fb) := by
      simp [List.append_assoc]
    rw [h4]
    exact List.drop_left' hmti
  have htake8 : (be 8 pr ++ fb).take 8 = be 8 pr := List.take_left' (length_be 8 _)
  have hreadpr : readU (be 8 pr) = pr := readU_be_of_lt (by norm_num; exact hprlt)
  have hpresent : ∀ f ∈ fieldRange, present pr 0 f = (m.get f).isSome := by
    intro f hfm
    have hx := List.mem_range'_1.mp hfm
    have := present_of_bitmaps hbm (f := f) (by omega) (by omega)
    rw [if_neg (by simp)] at this
    exact this
  have hloop := unpackFields_encs m pr 0 [] fieldRange (m.MTI ++ be 8 pr) hpresent hok
  rw [List.append_nil, ← hfb] at hloop
  have hpre12 : (m.MTI ++ be 8 pr).length = 12 := by
    simp [length_be, hmti]
  rw [hpre12, ← hmsg] at hloop
  rw [Unpack]
  rw [if_neg (by omega)]
  rw [htake2, hread2]
  rw [if_neg (by omega)]
  rw [hdrop2, htakemsg]
  rw [if_neg (by omega)]
  rw [hdrop4, htake8, hreadpr, htake4]
  rw [if_neg (by rw [hbit63]; simp)]
  rw [unpackRest]
  simp only [hloop]
  rw [if_neg (by omega)]

theorem pack_ok_elim {m : Message} {out : Bytes} (h : m.Pack = .ok out) :
    m.MTI.length = 4 ∧ ∃ pr se, m.bitmaps = .ok (pr, se) ∧
      packFields m fieldRange = .ok ((fieldRange.map (encOf m)).flatten) ∧
      (∀ f ∈ fieldRange, ∀ v, m.get f = some v → isOk (packField f v) = true) ∧
      out = assemble m.MTI pr se ((fieldRange.map (encOf m)).flatten) := by
  by_cases hmti : m.MTI.length ≠ 4
  · rw [Message.Pack, if_pos hmti] at h
    exact absurd h (by simp)
  · rw [Message.Pack, if_neg hmti] at h
    cases hbm : m.bitmaps with
    | error e => rw [hbm] at h; exact absurd h (by simp)
    | ok ps =>
      obtain ⟨pr, se⟩ := ps
      rw [hbm] at h
      cases hpf : packFields m fieldRange with
      | error e =>
        simp only [hpf] at h
        exact absurd h (by simp)
      | ok fb =>
        simp only [hpf] at h
        obtain ⟨hflat, hvalid⟩ := packFields_ok_elim m fieldRange fb hpf
        refine ⟨by omega, pr, se, rfl, by rw [hflat], hvalid, ?_⟩
        rw [← hflat]
        exact (Except.ok.inj h).symm

end Iso8583

namespace Iso8583

theorem lookup_mem {l : List (Nat × Bytes)} {f : Nat} {v : Bytes}
    (h : l.lookup f = some v) : (f, v) ∈ l := by
  induction l with
  | nil => simp [List.lookup] at h
  | cons q t ih =>
    obtain ⟨k, w⟩ := q
    by_cases hk : f = k
    · subst hk
      rw [lookup_cons_eq] at h
      obtain rfl := Option.some.inj h
      exact List.mem_cons_self _ _
    · rw [lookup_cons_ne w t hk] at h
      exact List.mem_cons_of_mem _ (ih h)

theorem pack_ok_of_valid {m : Message}
    (hmti : m.MTI.length = 4)
    (hkeys : ∀ q ∈ m.Fields, 2 ≤ q.1 ∧ q.1 ≤ 128)
    (hfields : ∀ q ∈ m.Fields, isOk (packField q.1 q.2) = true) :
    m.Pack = .ok (assemble m.MTI
      (m.Fields.foldl (fun ps p => setBit ps p.1) (0, 0)).1
      (m.Fields.foldl (fun ps p => setBit ps p.1) (0, 0)).2
      ((fieldRange.map (encOf m)).flatten)) := by
  have hfind : (m.Fields.map Prod.fst).find? badField = none := by
    apply List.find?_eq_none.mpr
    intro k hk
    obtain ⟨q, hq, rfl⟩ := List.mem_map.mp hk
    have := hkeys q hq
    simp [badField]
    omega
  have hbm : m.bitmaps = .ok (m.Fields.foldl (fun ps p => setBit ps p.1) (0, 0)) := by
    unfold Message.bitmaps
    rw [hfind]
  have hpf : packFields m fieldRange = .ok ((fieldRange.map (encOf m)).flatten) := by
    apply packFields_ok_of
    intro f hfm v hv
    exact hfields (f, v) (lookup_mem hv)
  rw [Message.Pack, if_neg (by omega)]
  have hbm2 : m.bitmaps = .ok ((m.Fields.foldl (fun ps p => setBit ps p.1) (0, 0)).1,
      (m.Fields.foldl (fun ps p => setBit ps p.1) (0, 0)).2) := by
    rw [hbm]
  rw [hbm2, hpf]

theorem pack_unpack_core {m : Message} {out : Bytes} (h : m.Pack = .ok out) :
    ∃ m2, Unpack out = .ok m2 ∧ m2.MTI = m.MTI ∧ ∀ f, m2.get f = m.get f := by
  obtain ⟨hmti, pr, se, hbm, hpf, hvalid, hout⟩ := pack_ok_elim h
  have hget : ∀ f : Nat, (fieldsAlong m fieldRange).lookup f = m.get f := by
    intro f
    rw [lookup_fieldsAlong]
    by_cases hfm : f ∈ fieldRange
    · simp [hfm]
    · rw [if_neg hfm]
      cases hg : m.get f with
      | none => rfl
      | some v =>
        exfalso
        obtain ⟨hkeys, _⟩ := bitmaps_ok_elim hbm
        have hmem : (f, v) ∈ m.Fields := lookup_mem hg
        have := hkeys (f, v) hmem
        exact hfm (List.mem_range'_1.mpr (by omega))
  by_cases hse : se = 0
  · subst hse
    refine ⟨⟨m.MTI, fieldsAlong m fieldRange⟩, ?_, rfl, hget⟩
    rw [hout]
    exact unpack_assemble_prim hmti hbm hvalid
  · refine ⟨⟨m.MTI, fieldsAlong m fieldRange⟩, ?_, rfl, hget⟩
    rw [hout]
    exact unpack_assemble_sec hmti hbm hse hvalid

theorem implOK_elim {m : Message} (h : implOK m = true) :
    m.MTI.length = 4 ∧ (∀ c ∈ m.MTI, isDigit c = true) ∧
    (∀ q ∈ m.Fields, 2 ≤ q.1 ∧ q.1 ≤ 128) ∧
    (∀ q ∈ m.Fields, isOk (packField q.1 q.2) = true) := by
  unfold implOK at h
  simp only [Bool.and_eq_true, List.all_eq_true, beq_iff_eq] at h
  obtain ⟨⟨hmti, hdig⟩, hf⟩ := h
  refine ⟨hmti, hdig, ?_, ?_⟩
  · intro q hq
    have hc := hf q hq
    simp only [Bool.or_eq_true, Bool.and_eq_true, beq_iff_eq, decide_eq_true_eq] at hc
    omega
  · intro q hq
    have hc := hf q hq
    simp only [Bool.or_eq_true, Bool.and_eq_true, beq_iff_eq, decide_eq_true_eq] at hc
    by_cases h7 : q.1 = 7
    · have hl : q.2.length = 10 := by omega
      rw [h7]
      simp [packField, hl, isOk]
    · by_cases h11 : q.1 = 11
      · have hl : q.2.length = 6 := by omega
        rw [h11]
        simp [packField, hl, isOk]
      · by_cases h48 : q.1 = 48
        · have hl : ¬ (q.2.length > 999) := by omega
          rw [h48]
          simp [packField, packLLLVAR, hl, isOk]
        · by_cases h70 : q.1 = 70
          · have hl : q.2.length = 3 := by omega
            rw [h70]
            simp [packField, hl, isOk]
          · have h102 : q.1 = 102 := by omega
            have hl : ¬ (q.2.length > 99) := by omega
            rw [h102]
            simp [packField, packLLVAR, hl, isOk]

end Iso8583

namespace Iso8583

theorem unpackField_ok_valid {f : Nat} {p : Bytes} {off : Nat} {v : Bytes} {off2 : Nat}
    (h : unpackField f p off = .ok (v, off2)) : isOk (packField f v) = true := by
  by_cases h7 : f = 7
  · subst h7
    have h' : readFixed 7 10 p off = .ok (v, off2) := h
    unfold readFixed at h'
    split at h'
    · exact absurd h' (by simp)
    · rename_i hle
      have hv : (p.drop off).take 10 = v := congrArg Prod.fst (Res.ok.inj h')
      have hvl : v.length = 10 := by
        rw [← hv]
        simp [List.length_take, List.length_drop]
        omega
      simp [packField, hvl, isOk]
  · by_cases h11 : f = 11
    · subst h11
      have h' : readFixed 11 6 p off = .ok (v, off2) := h
      unfold readFixed at h'
      split at h'
      · exact absurd h' (by simp)
      · rename_i hle
        have hv : (p.drop off).take 6 = v := congrArg Prod.fst (Res.ok.inj h')
        have hvl : v.length = 6 := by
          rw [← hv]
          simp [List.length_take, List.length_drop]
          omega
        simp [packField, hvl, isOk]
    · by_cases h48 : f = 48
      · subst h48
        have h' : unpackLLLVAR p off = .ok (v, off2) := h
        have hle : ¬ (off + 3 > p.length) := by
          by_contra hc
          unfold unpackLLLVAR at h'
          rw [if_pos hc] at h'
          exact absurd h' (by simp)
        cases hat : atoi ((p.drop off).take 3) with
        | none =>
          unfold unpackLLLVAR at h'
          rw [if_neg hle, hat] at h'
          simp at h'
        | some l =>
          rw [unpackLLLVAR_eq_of_atoi p off l hle hat] at h'
          split at h'
          · exact absurd h' (by simp)
          · split at h'
            · exact absurd h' (by simp)
            · rename_i hgt hneg
              have hv : (p.drop (off + 3)).take l.toNat = v :=
                congrArg Prod.fst (Res.ok.inj h')
              have hlt : l.toNat < 10 ^ ((p.drop off).take 3).length := atoi_toNat_lt hat
              have hs3 : ((p.drop off).take 3).length = 3 := by
                simp [List.length_take, List.length_drop]
                omega
              rw [hs3] at hlt
              have hvl : v.length ≤ 999 := by
                rw [← hv]
                have := List.length_take_le l.toNat (p.drop (off + 3))
                omega
              have hnot : ¬ (v.length > 999) := by omega
              simp [packField, packLLLVAR, hnot, isOk]
      · by_cases h70 : f = 70
        · subst h70
          have h' : readFixed 70 3 p off = .ok (v, off2) := h
          unfold readFixed at h'
          split at h'
          · exact absurd h' (by simp)
          · rename_i hle
            have hv : (p.drop off).take 3 = v := congrArg Prod.fst (Res.ok.inj h')
            have hvl : v.length = 3 := by
              rw [← hv]
              simp [List.length_take, List.length_drop]
              omega
            simp [packField, hvl, isOk]
        · by_cases h102 : f = 102
          · subst h102
            have h' : unpackLLVAR p off = .ok (v, off2) := h
            have hle : ¬ (off + 2 > p.length) := by
              by_contra hc
              unfold unpackLLVAR at h'
              rw [if_pos hc] at h'
              exact absurd h' (by simp)
            cases hat : atoi ((p.drop off).take 2) with
            | none =>
              unfold unpackLLVAR at h'
              rw [if_neg hle, hat] at h'
              simp at h'
            | some l =>
              rw [unpackLLVAR_eq_of_atoi p off l hle hat] at h'
              split at h'
              · exact absurd h' (by simp)
              · split at h'
                · exact absurd h' (by simp)
                · rename_i hgt hneg
                  have hv : (p.drop (off + 2)).take l.toNat = v :=
                    congrArg Prod.fst (Res.ok.inj h')
                  have hlt : l.toNat < 10 ^ ((p.drop off).take 2).length := atoi_toNat_lt hat
                  have hs2 : ((p.drop off).take 2).length = 2 := by
                    simp [List.length_take, List.length_drop]
                    omega
                  rw [hs2] at hlt
                  have hvl : v.length ≤ 99 := by
                    rw [← hv]
                    have := List.length_take_le l.toNat (p.drop (off + 2))
                    omega
                  have hnot : ¬ (v.length > 99) := by omega
                  simp [packField, packLLVAR, hnot, isOk]
          · have h' : (Res.err (Err.notImplemented f) : Res (Bytes × Nat)) = .ok (v, off2) := by
              rw [← h]
              simp [unpackField, h7, h11, h48, h70, h102]
            exact absurd h' (by simp)

end Iso8583

namespace Iso8583

theorem unpackFields_entries {p : Bytes} {pr se : Nat} :
    ∀ (fs : List Nat) (off : Nat) (fl : List (Nat × Bytes)) (offE : Nat),
    unpackFields p pr se fs off = .ok (fl, offE) →
    ∀ q ∈ fl, q.1 ∈ fs ∧ isOk (packField q.1 q.2) = true := by
  intro fs
  induction fs with
  | nil =>
    intro off fl offE h q hq
    have h0 : ([] : List (Nat × Bytes)) = fl := congrArg Prod.fst (Res.ok.inj h)
    rw [← h0] at hq
    simp at hq
  | cons f t ih =>
    intro off fl offE h q hq
    rw [unpackFields] at h
    by_cases hpres : present pr se f = true
    · rw [if_pos hpres] at h
      cases hu : unpackField f p off with
      | ok vo =>
        obtain ⟨v, off2⟩ := vo
        simp only [hu] at h
        cases hr : unpackFields p pr se t off2 with
        | ok lo =>
          obtain ⟨l, o⟩ := lo
          simp only [hr] at h
          have hfl : (f, v) :: l = fl := congrArg Prod.fst (Res.ok.inj h)
          rw [← hfl] at hq
          rcases List.mem_cons.mp hq with rfl | hql
          · exact ⟨List.mem_cons_self _ _, unpackField_ok_valid hu⟩
          · obtain ⟨hin, hv⟩ := ih off2 l o hr q hql
            exact ⟨List.mem_cons_of_mem _ hin, hv⟩
        | err e => simp only [hr] at h; exact absurd h (by simp)
        | panicked => simp only [hr] at h; exact absurd h (by simp)
      | err e => simp only [hu] at h; exact absurd h (by simp)
      | panicked => simp only [hu] at h; exact absurd h (by simp)
    · have hb : present pr se f = false := by simpa using hpres
      rw [hb] at h
      rw [if_neg (by simp)] at h
      obtain ⟨hin, hv⟩ := ih off fl offE h q hq
      exact ⟨List.mem_cons_of_mem _ hin, hv⟩

theorem unpackRest_ok_elim {mti p : Bytes} {pr se off0 : Nat} {m2 : Message}
    (h : unpackRest mti p pr se off0 = .ok m2) :
    ∃ fl, unpackFields p pr se fieldRange off0 = .ok (fl, p.length) ∧ m2 = ⟨mti, fl⟩ := by
  unfold unpackRest at h
  cases hu : unpackFields p pr se fieldRange off0 with
  | ok flo =>
    obtain ⟨fl, offE⟩ := flo
    simp only [hu] at h
    by_cases hoff : offE ≠ p.length
    · rw [if_pos hoff] at h
      exact absurd h (by simp)
    · rw [if_neg hoff] at h
      have heq : offE = p.length := by omega
      exact ⟨fl, by rw [heq], (Res.ok.inj h).symm⟩
  | err e => simp only [hu] at h; exact absurd h (by simp)
  | panicked => simp only [hu] at h; exact absurd h (by simp)

theorem Unpack_ok_elim {b : Bytes} {m2 : Message} (h : Unpack b = .ok m2) :
    m2.MTI.length = 4 ∧ ∀ q ∈ m2.Fields, q.1 ∈ fieldRange ∧ isOk (packField q.1 q.2) = true := by
  simp only [Unpack] at h
  split at h
  · exact absurd h (by simp)
  · split at h
    · exact absurd h (by simp)
    · split at h
      · exact absurd h (by simp)
      · rename_i h2 h3 h4
        split at h
        · split at h
          · exact absurd h (by simp)
          · obtain ⟨fl, hfl, hm2⟩ := unpackRest_ok_elim h
            subst hm2
            have hplen : ¬ ((b.drop 2).take (readU (b.take 2))).length < 20 := by assumption
            constructor
            · simp only [List.length_take] at hplen ⊢
              omega
            · intro q hq
              exact unpackFields_entries fieldRange 20 fl _ hfl q hq
        · obtain ⟨fl, hfl, hm2⟩ := unpackRest_ok_elim h
          subst hm2
          have hplen : ¬ ((b.drop 2).take (readU (b.take 2))).length < 12 := by assumption
          constructor
          · simp only [List.length_take] at hplen ⊢
            omega
          · intro q hq
            exact unpackFields_entries fieldRange 12 fl _ hfl q hq

end Iso8583

namespace Iso8583

theorem packFields_congr {m1 m2 : Message} (hg : ∀ f, m1.get f = m2.get f) :
    ∀ fs : List Nat, packFields m1 fs = packFields m2 fs := by
  intro fs
  induction fs with
  | nil => rfl
  | cons f t ih => simp only [packFields, hg f, ih]

theorem bitmaps_congr {m1 m2 : Message} {pr se : Nat}
    (hg : ∀ f, m1.get f = m2.get f) (h1 : m1.bitmaps = .ok (pr, se)) :
    m2.bitmaps = .ok (pr, se) := by
  obtain ⟨hkeys1, _⟩ := bitmaps_ok_elim h1
  have hkeys2 : ∀ q ∈ m2.Fields, 2 ≤ q.1 ∧ q.1 ≤ 128 := by
    intro q hq
    obtain ⟨k, v⟩ := q
    have hs : (m2.get k).isSome = true := mem_lookup_isSome hq
    rw [← hg k] at hs
    obtain ⟨w, hw⟩ := lookup_isSome_mem hs
    exact hkeys1 (k, w) hw
  have hfind2 : (m2.Fields.map Prod.fst).find? badField = none := by
    apply List.find?_eq_none.mpr
    intro k hk
    obtain ⟨q, hq, rfl⟩ := List.mem_map.mp hk
    have := hkeys2 q hq
    simp [badField]
    omega
  have hbm2 : m2.bitmaps = .ok ((m2.Fields.foldl (fun ps p => setBit ps p.1) (0, 0)).1,
      (m2.Fields.foldl (fun ps p => setBit ps p.1) (0, 0)).2) := by
    unfold Message.bitmaps
    rw [hfind2]
  obtain ⟨c1a, c1b, c1bit, c1prlt, c1selt, c1se0⟩ := bitmaps_char h1
  obtain ⟨c2a, c2b, c2bit, c2prlt, c2selt, c2se0⟩ := bitmaps_char hbm2
  have hpr : (m2.Fields.foldl (fun ps p => setBit ps p.1) (0, 0)).1 = pr := by
    apply Nat.eq_of_testBit_eq
    intro i
    by_cases hi : i ≤ 62
    · have e1 := c1a (64 - i) (by omega) (by omega)
      have e2 := c2a (64 - i) (by omega) (by omega)
      rw [show 64 - (64 - i) = i from by omega] at e1 e2
      rw [e1, e2, hg]
    · by_cases hi63 : i = 63
      · rw [hi63, c1bit, c2bit]
      · have h64 : 64 ≤ i := by omega
        have hple : (2:Nat) ^ 64 ≤ 2 ^ i := Nat.pow_le_pow_right (by norm_num) h64
        rw [Nat.testBit_lt_two_pow (lt_of_lt_of_le c2prlt hple),
          Nat.testBit_lt_two_pow (lt_of_lt_of_le c1prlt hple)]
  have hse : (m2.Fields.foldl (fun ps p => setBit ps p.1) (0, 0)).2 = se := by
    apply Nat.eq_of_testBit_eq
    intro i
    by_cases hi : i ≤ 63
    · have e1 := c1b (128 - i) (by omega) (by omega)
      have e2 := c2b (128 - i) (by omega) (by omega)
      rw [show 128 - (128 - i) = i from by omega] at e1 e2
      rw [e1, e2, hg]
    · have h64 : 64 ≤ i := by omega
      have hple : (2:Nat) ^ 64 ≤ 2 ^ i := Nat.pow_le_pow_right (by norm_num) h64
      rw [Nat.testBit_lt_two_pow (lt_of_lt_of_le c2selt hple),
        Nat.testBit_lt_two_pow (lt_of_lt_of_le c1selt hple)]
  rw [hbm2, hpr, hse]

theorem pack_congr {m1 m2 : Message} {out : Bytes}
    (hM : m1.MTI = m2.MTI) (hg : ∀ f, m1.get f = m2.get f)
    (h : m1.Pack = .ok out) : m2.Pack = .ok out := by
  obtain ⟨hmti, pr, se, hbm, hpf, hvalid, hout⟩ := pack_ok_elim h
  have hbm2 := bitmaps_congr hg hbm
  have hpf2 : packFields m2 fieldRange = .ok ((fieldRange.map (encOf m1)).flatten) := by
    rw [← packFields_congr hg fieldRange]
    exact hpf
  rw [Message.Pack, if_neg (by rw [← hM]; omega)]
  simp only [hbm2, hpf2]
  rw [hout, hM]

end Iso8583

namespace Transport

theorem loopSleeps_bound (cfg : Int) (hinit : initBackoff cfg < 2 * capNs) :
    ∀ (es : List Bool) (bo : Int), bo < 2 * capNs →
    ∀ s ∈ loopSleeps cfg es bo, s < 2 * capNs := by
  intro es
  induction es with
  | nil => intro bo _ s hs; simp [loopSleeps] at hs
  | cons e t ih =>
    intro bo hbo s hs
    cases e with
    | false =>
      rw [loopSleeps] at hs
      rcases List.mem_cons.mp hs with rfl | ht
      · exact hbo
      · apply ih (nextBackoff bo) ?_ s ht
        unfold nextBackoff capNs secondNs
        unfold capNs secondNs at hbo hinit
        split <;> omega
    | true =>
      rw [loopSleeps] at hs
      exact ih (initBackoff cfg) hinit s hs

theorem loopSleeps_replicate (cfg : Int) :
    ∀ (n : Nat) (bo : Int), loopSleeps cfg (List.replicate n false) bo
      = (List.range n).map (fun k => nextBackoff^[k] bo) := by
  intro n
  induction n with
  | zero => intro bo; simp [loopSleeps]
  | succ n ih =>
    intro bo
    rw [List.replicate_succ, loopSleeps, ih (nextBackoff bo), List.range_succ_eq_map,
      List.map_cons, List.map_map]
    refine congrArg₂ _ (by simp) (List.map_congr_left fun k hk => ?_)
    simp only [Function.comp_apply, Function.iterate_succ_apply]

theorem loopSleeps_reset (cfg : Int) :
    ∀ (es rest : List Bool) (bo : Int),
    loopSleeps cfg (es ++ true :: rest) bo
      = loopSleeps cfg es bo ++ loopSleeps cfg rest (initBackoff cfg) := by
  intro es
  induction es with
  | nil => intro rest bo; simp [loopSleeps]
  | cons e t ih =>
    intro rest bo
    cases e with
    | false => simp [loopSleeps, ih]
    | true => simp [loopSleeps, ih]

end Transport

namespace Iso8583

theorem pack_mli {m : Message} {out : Bytes} (h : m.Pack = .ok out) :
    readU (out.take 2) = out.length - 2 := by
  obtain ⟨hmti, pr, se, hbm, hpf, hvalid, hout⟩ := pack_ok_elim h
  have hfbl : ((fieldRange.map (encOf m)).flatten).length ≤ 1122 := by
    have h2 := flatten_encOf_length_le m fieldRange
    rw [capF_sum] at h2
    exact h2
  unfold assemble at hout
  have hsec : (if se ≠ 0 then be 8 se else []).length ≤ 8 := by
    split <;> simp [length_be]
  have hmsgl : (m.MTI ++ be 8 (if se ≠ 0 then pr ||| 2 ^ 63 else pr) ++
      (if se ≠ 0 then be 8 se else []) ++ (fieldRange.map (encOf m)).flatten).length ≤ 1142 := by
    simp only [List.length_append, length_be, hmti]
    omega
  have htake : out.take 2 = be 2 (m.MTI ++ be 8 (if se ≠ 0 then pr ||| 2 ^ 63 else pr) ++
      (if se ≠ 0 then be 8 se else []) ++ (fieldRange.map (encOf m)).flatten).length := by
    rw [hout]
    exact List.take_left' (length_be 2 _)
  have hol : out.length = 2 + (m.MTI ++ be 8 (if se ≠ 0 then pr ||| 2 ^ 63 else pr) ++
      (if se ≠ 0 then be 8 se else []) ++ (fieldRange.map (encOf m)).flatten).length := by
    rw [hout]
    simp [length_be]
  rw [htake, readU_be_of_lt (lt_of_le_of_lt hmsgl (by norm_num)), hol]
  omega

theorem unpack_ignores_trailing (b junk : Bytes) (hlen : 2 + readU (b.take 2) ≤ b.length) :
    Unpack (b ++ junk) = Unpack b := by
  have hb2 : 2 ≤ b.length := by omega
  have htk : (b ++ junk).take 2 = b.take 2 := List.take_append_of_le_length hb2
  have hdr : (b ++ junk).drop 2 = b.drop 2 ++ junk := List.drop_append_of_le_length hb2
  have hp : ((b ++ junk).drop 2).take (readU (b.take 2))
      = (b.drop 2).take (readU (b.take 2)) := by
    rw [hdr]
    exact List.take_append_of_le_length (by simp [List.length_drop]; omega)
  have hjl : (b ++ junk).length = b.length + junk.length := by simp
  simp only [Unpack]
  rw [htk, hp]
  rw [if_neg (show ¬ ((b ++ junk).length < 2) by omega)]
  rw [if_neg (show ¬ ((b ++ junk).length - 2 < readU (b.take 2)) by omega)]
  rw [if_neg (show ¬ (b.length < 2) by omega)]
  rw [if_neg (show ¬ (b.length - 2 < readU (b.take 2)) by omega)]

end Iso8583

namespace Iso8583

theorem pack_secondary_structure {m : Message} {out : Bytes} (h : m.Pack = .ok out) :
    ∃ pr se fb, packFields m fieldRange = .ok fb ∧
      ((∃ f, 64 < f ∧ (m.get f).isSome = true) ↔ se ≠ 0) ∧
      (se ≠ 0 → out = be 2 (m.MTI ++ be 8 (pr ||| 2 ^ 63) ++ be 8 se ++ fb).length
          ++ (m.MTI ++ be 8 (pr ||| 2 ^ 63) ++ be 8 se ++ fb)
        ∧ (readU ((out.drop 6).take 8)).testBit 63 = true) ∧
      (se = 0 → out = be 2 (m.MTI ++ be 8 pr ++ fb).length ++ (m.MTI ++ be 8 pr ++ fb)
        ∧ (readU ((out.drop 6).take 8)).testBit 63 = false) := by
  obtain ⟨hmti, pr, se, hbm, hpf, hvalid, hout⟩ := pack_ok_elim h
  obtain ⟨c1a, c1b, cbit, cprlt, cselt, cse0⟩ := bitmaps_char hbm
  refine ⟨pr, se, (fieldRange.map (encOf m)).flatten, hpf, ?_, ?_, ?_⟩
  · constructor
    · rintro ⟨f, hf64, hfs⟩
      intro h0
      obtain ⟨w, hw⟩ := lookup_isSome_mem hfs
      have := cse0.mp h0 (f, w) hw
      omega
    · intro hne
      by_contra hno
      push_neg at hno
      apply hne
      apply cse0.mpr
      intro q hq
      obtain ⟨k, v⟩ := q
      by_contra hgt
      have hs : (m.get k).isSome = true := mem_lookup_isSome hq
      exact hno k (by omega) hs
  · intro hse
    have hout2 : out = be 2 (m.MTI ++ be 8 (pr ||| 2 ^ 63) ++ be 8 se ++
        (fieldRange.map (encOf m)).flatten).length ++ (m.MTI ++ be 8 (pr ||| 2 ^ 63) ++
        be 8 se ++ (fieldRange.map (encOf m)).flatten) := by
      rw [hout]
      simp [assemble, hse]
    refine ⟨hout2, ?_⟩
    have hsplit : out = (be 2 (m.MTI ++ be 8 (pr ||| 2 ^ 63) ++ be 8 se ++
        (fieldRange.map (encOf m)).flatten).length ++ m.MTI) ++
        (be 8 (pr ||| 2 ^ 63) ++ (be 8 se ++ (fieldRange.map (encOf m)).flatten)) := by
      rw [hout2]
      simp [List.append_assoc]
    have hd6 : out.drop 6 = be 8 (pr ||| 2 ^ 63) ++
        (be 8 se ++ (fieldRange.map (encOf m)).flatten) := by
      rw [hsplit]
      exact List.drop_left' (by simp [length_be, hmti])
    rw [hd6, List.take_left' (length_be 8 _),
      readU_be_of_lt (by norm_num; exact prF_lt cprlt)]
    rw [Nat.testBit_or, Nat.testBit_two_pow]
    simp
  · intro hse
    subst hse
    have hout2 : out = be 2 (m.MTI ++ be 8 pr ++ (fieldRange.map (encOf m)).flatten).length
        ++ (m.MTI ++ be 8 pr ++ (fieldRange.map (encOf m)).flatten) := by
      rw [hout]
      simp [assemble]
    refine ⟨hout2, ?_⟩
    have hsplit : out = (be 2 (m.MTI ++ be 8 pr ++
        (fieldRange.map (encOf m)).flatten).length ++ m.MTI) ++
        (be 8 pr ++ (fieldRange.map (encOf m)).flatten) := by
      rw [hout2]
      simp [List.append_assoc]
    have hd6 : out.drop 6 = be 8 pr ++ (fieldRange.map (encOf m)).flatten := by
      rw [hsplit]
      exact List.drop_left' (by simp [length_be, hmti])
    rw [hd6, List.take_left' (length_be 8 _), readU_be_of_lt (by norm_num; exact cprlt)]
    exact cbit

end Iso8583

namespace Iso8583

/-- Input for the C1 counterexample: {MTI 0200, DE3 = 000000}. -/
def c1cex : Message := ⟨[48, 50, 48, 48], [(3, [48, 48, 48, 48, 48, 48])]⟩

/-- C1 (counterexample): the Message {MTI 0200, DE3 = 000000} satisfies the Field
Spec constraints quoted by the claim (DE3 is ProcessingCode, FixedNum of declared
length 6, the MTI is 4 decimal digits), yet `Pack` fails on it, so the claim as
stated is false of the code. -/
theorem c1_fieldspec_counterexample :
    specOK c1cex = true ∧ isOk (Message.Pack c1cex) = false :=
  ⟨by decide, by decide⟩

/-- C1 (amended): `Pack` implements only fields 7 (length 10), 11 (length 6),
48 (length at most 999), 70 (length 3) and 102 (length at most 99); for every
Message with a 4-decimal-digit MTI whose populated fields lie in this subset with
these lengths, `Pack` succeeds and `Unpack` of the packed bytes returns a Message
with the same MTI and exactly the same field set and field values. -/
theorem c1_roundtrip_implemented (m : Message) (h : implOK m = true) :
    ∃ out m2, Message.Pack m = .ok out ∧ Unpack out = .ok m2 ∧
      m2.MTI = m.MTI ∧ ∀ f, m2.get f = m.get f := by
  obtain ⟨hmti, _, hkeys, hfields⟩ := implOK_elim h
  have hpk := pack_ok_of_valid hmti hkeys hfields
  obtain ⟨m2, hu, hM, hg⟩ := pack_unpack_core hpk
  exact ⟨_, m2, hpk, hu, hM, hg⟩

/-- Witness input for C1: a concrete echo request within the implemented subset. -/
def c1wit : Message :=
  ⟨[48, 56, 48, 48], [(7, [48, 49, 48, 50, 48, 51, 48, 52, 48, 53]),
    (11, [49, 50, 51, 52, 53, 54]), (70, [51, 48, 49])]⟩

/-- C1 (witness): the amended round-trip applied to a concrete echo request. -/
theorem c1_roundtrip_witness :
    implOK c1wit = true ∧ ∃ out m2, Message.Pack c1wit = .ok out ∧ Unpack out = .ok m2 ∧
      m2.MTI = c1wit.MTI ∧ ∀ f, m2.get f = c1wit.get f :=
  ⟨by decide, c1_roundtrip_implemented c1wit (by decide)⟩

/-- Input of the failing test `TestBadDataResponse`: {MTI 0210, DE39 = 30}. -/
def c2msg : Message := ⟨[48, 50, 49, 48], [(39, [51, 48])]⟩

/-- C2 (code bug): the package's own test `TestBadDataResponse` and its
`CommonSpec` table (`39 RespCode FixedAns/2`) expect {MTI 0210, DE39 = 30} to
pack and round-trip, but the `Pack` switch has no case for field 39 and fails
with `field 39 not implemented in skeleton`. -/
theorem c2_de39_not_implemented :
    Message.Pack c2msg = .error (.notImplemented 39) := by decide

/-- A canonical frame: Pack of {MTI 0800, DE11 = 123456}. -/
def c3base : Message := ⟨[48, 56, 48, 48], [(11, [49, 50, 51, 52, 53, 54])]⟩

/-- The packed bytes of `c3base`. -/
def c3packed : Bytes :=
  [0, 18, 48, 56, 48, 48, 0, 32, 0, 0, 0, 0, 0, 0, 49, 50, 51, 52, 53, 54]

/-- The frame `c3packed` with one junk byte appended, MLI unchanged. -/
def c3bytes : Bytes := c3packed ++ [88]

/-- C3 (counterexample): `Unpack` accepts a frame with a junk byte beyond offset
2+MLI, and `Pack` of the parsed Message reproduces only the declared frame, so
`pack(unpack(b)) ≠ b` for this accepted `b` and the claim as stated is false. -/
theorem c3_roundtrip_counterexample :
    Unpack c3bytes = .ok c3base ∧ Message.Pack c3base = .ok c3packed ∧
      c3packed ≠ c3bytes :=
  ⟨by decide, by decide, by decide⟩

/-- C3 (amended): for every byte sequence `b` that `Unpack` accepts, re-packing
the parsed Message succeeds and yields a canonical frame that parses back to a
Message with the same MTI and fields; the re-packed frame equals `b` exactly
when `b` is itself an output of `Pack`. -/
theorem c3_canonical_roundtrip (b : Bytes) (m2 : Message) (h : Unpack b = .ok m2) :
    ∃ c, Message.Pack m2 = .ok c ∧
      (∃ m3, Unpack c = .ok m3 ∧ m3.MTI = m2.MTI ∧ ∀ f, m3.get f = m2.get f) ∧
      (c = b ↔ ∃ m0, Message.Pack m0 = .ok b) := by
  obtain ⟨hmti, hent⟩ := Unpack_ok_elim h
  have hkeys : ∀ q ∈ m2.Fields, 2 ≤ q.1 ∧ q.1 ≤ 128 := by
    intro q hq
    have hx := List.mem_range'_1.mp (hent q hq).1
    omega
  have hfields : ∀ q ∈ m2.Fields, isOk (packField q.1 q.2) = true :=
    fun q hq => (hent q hq).2
  have hpk := pack_ok_of_valid hmti hkeys hfields
  refine ⟨_, hpk, pack_unpack_core hpk, ?_, ?_⟩
  · intro hcb
    exact ⟨m2, hcb ▸ hpk⟩
  · rintro ⟨m0, hm0⟩
    obtain ⟨mc, hmc, hM, hg⟩ := pack_unpack_core hm0
    have hc2 : mc = m2 := Res.ok.inj (hmc.symm.trans h)
    rw [hc2] at hM hg
    have hb2 : Message.Pack m2 = .ok b :=
      pack_congr hM.symm (fun f => (hg f).symm) hm0
    exact Except.ok.inj (hpk.symm.trans hb2)

/-- Witness input for C3: an accepted canonical frame and its Message. -/
def c3wmsg : Message := ⟨[48, 50, 49, 48], [(11, [48, 48, 48, 48, 52, 50])]⟩

/-- The wire form of `c3wmsg`. -/
def c3wbytes : Bytes :=
  [0, 18, 48, 50, 49, 48, 0, 32, 0, 0, 0, 0, 0, 0, 48, 48, 48, 48, 52, 50]

/-- C3 (witness): the amended claim at a concrete accepted frame. -/
theorem c3_canonical_roundtrip_witness :
    ∃ c, Message.Pack c3wmsg = .ok c ∧
      (∃ m3, Unpack c = .ok m3 ∧ m3.MTI = c3wmsg.MTI ∧ ∀ f, m3.get f = c3wmsg.get f) ∧
      (c = c3wbytes ↔ ∃ m0, Message.Pack m0 = .ok c3wbytes) :=
  c3_canonical_roundtrip c3wbytes c3wmsg (by decide)

/-- Message parsed from the C4 counterexample buffer. -/
def c4msg : Message := ⟨[48, 50, 48, 48], [(7, [48, 49, 48, 50, 48, 51, 48, 52, 48, 53])]⟩

/-- A complete frame for `c4msg` followed by one byte beyond offset 2+MLI. -/
def c4bytes : Bytes :=
  [0, 22, 48, 50, 48, 48, 2, 0, 0, 0, 0, 0, 0, 0, 48, 49, 48, 50, 48, 51, 48, 52, 48, 53, 89]

/-- C4 (counterexample): a buffer that extends one byte past offset 2+MLI is
accepted by `Unpack` rather than rejected, so the claim as stated is false. -/
theorem c4_trailing_byte_counterexample :
    2 + readU (c4bytes.take 2) < c4bytes.length ∧ Unpack c4bytes = .ok c4msg :=
  ⟨by decide, by decide⟩

/-- C4 (amended): the `extra bytes at end` error is raised exactly for
unconsumed bytes inside the MLI-delimited region: when the field walk stops
short of the region's end, `Unpack` fails with that error; bytes beyond offset
2+MLI are ignored — `Unpack (b ++ junk) = Unpack b` whenever `b` already
contains the whole declared frame. -/
theorem c4_extra_bytes :
    (∀ b junk : Bytes, 2 + readU (b.take 2) ≤ b.length → Unpack (b ++ junk) = Unpack b) ∧
    (∀ (mti p : Bytes) (pr se off0 : Nat) (fl : List (Nat × Bytes)) (off : Nat),
      unpackFields p pr se fieldRange off0 = .ok (fl, off) → off ≠ p.length →
      unpackRest mti p pr se off0 = .err (.extraBytes (p.length - off))) := by
  refine ⟨unpack_ignores_trailing, ?_⟩
  intro mti p pr se off0 fl off hfl hoff
  unfold unpackRest
  simp only [hfl]
  rw [if_pos hoff]

/-- A complete valid frame used by the C4 witness. -/
def c4wb : Bytes := [0, 18, 48, 50, 50, 48, 0, 32, 0, 0, 0, 0, 0, 0, 57, 57, 57, 57, 57, 57]

/-- An MLI-delimited region with one unconsumed byte, for the C4 witness. -/
def c4wp : Bytes := [48, 50, 49, 48, 0, 0, 0, 0, 0, 0, 0, 0, 88]

/-- C4 (witness): both amended parts applied at concrete inputs. -/
theorem c4_extra_bytes_witness :
    Unpack (c4wb ++ [88]) = Unpack c4wb ∧
    unpackRest [48, 50, 49, 48] c4wp 0 0 12 = .err (.extraBytes 1) :=
  ⟨c4_extra_bytes.1 c4wb [88] (by decide),
   c4_extra_bytes.2 [48, 50, 49, 48] c4wp 0 0 12 [] 12 (by decide) (by decide)⟩

/-- C6: the first two bytes of every `Pack` output, read as a big-endian
unsigned 16-bit integer, equal the total output length minus 2. -/
theorem c6_mli (m : Message) (out : Bytes) (h : Message.Pack m = .ok out) :
    readU (out.take 2) = out.length - 2 :=
  pack_mli h

/-- Witness input for C6: an echo message with a secondary bitmap. -/
def c6m : Message := ⟨[48, 56, 48, 48], [(70, [51, 48, 49])]⟩

/-- Pack output of `c6m`. -/
def c6out : Bytes :=
  [0, 23, 48, 56, 48, 48, 128, 0, 0, 0, 0, 0, 0, 0, 4, 0, 0, 0, 0, 0, 0, 0, 51, 48, 49]

/-- C6 (witness). -/
theorem c6_mli_witness :
    Message.Pack c6m = .ok c6out ∧ readU (c6out.take 2) = c6out.length - 2 :=
  ⟨by decide, c6_mli c6m c6out (by decide)⟩

/-- C7: the packed output contains a secondary bitmap, and has bit 1 of the
primary bitmap set, exactly when some field above 64 is present; with no such
field the primary bitmap has bit 1 clear and no secondary bitmap is emitted. -/
theorem c7_secondary (m : Message) (out : Bytes) (h : Message.Pack m = .ok out) :
    ∃ pr se fb, packFields m fieldRange = .ok fb ∧
      ((∃ f, 64 < f ∧ (m.get f).isSome = true) ↔ se ≠ 0) ∧
      (se ≠ 0 → out = be 2 (m.MTI ++ be 8 (pr ||| 2 ^ 63) ++ be 8 se ++ fb).length
          ++ (m.MTI ++ be 8 (pr ||| 2 ^ 63) ++ be 8 se ++ fb)
        ∧ (readU ((out.drop 6).take 8)).testBit 63 = true) ∧
      (se = 0 → out = be 2 (m.MTI ++ be 8 pr ++ fb).length ++ (m.MTI ++ be 8 pr ++ fb)
        ∧ (readU ((out.drop 6).take 8)).testBit 63 = false) :=
  pack_secondary_structure h

/-- Witness input for C7: a message with only DE102 (above 64) present. -/
def c7m : Message := ⟨[48, 56, 48, 48], [(102, [65])]⟩

/-- Pack output of `c7m`. -/
def c7out : Bytes :=
  [0, 23, 48, 56, 48, 48, 128, 0, 0, 0, 0, 0, 0, 0, 0, 0, 0, 0, 4, 0, 0, 0, 48, 49, 65]

/-- C7 (witness). -/
theorem c7_secondary_witness :
    Message.Pack c7m = .ok c7out ∧
    ∃ pr se fb, packFields c7m fieldRange = .ok fb ∧
      ((∃ f, 64 < f ∧ (c7m.get f).isSome = true) ↔ se ≠ 0) ∧
      (se ≠ 0 → c7out = be 2 (c7m.MTI ++ be 8 (pr ||| 2 ^ 63) ++ be 8 se ++ fb).length
          ++ (c7m.MTI ++ be 8 (pr ||| 2 ^ 63) ++ be 8 se ++ fb)
        ∧ (readU ((c7out.drop 6).take 8)).testBit 63 = true) ∧
      (se = 0 → c7out = be 2 (c7m.MTI ++ be 8 pr ++ fb).length ++ (c7m.MTI ++ be 8 pr ++ fb)
        ∧ (readU ((c7out.drop 6).take 8)).testBit 63 = false) :=
  ⟨by decide, c7_secondary c7m c7out (by decide)⟩

/-- LLVAR boundary input of length 99. -/
def c8m102ok : Message := ⟨[48, 50, 48, 48], [(102, List.replicate 99 65)]⟩

/-- LLVAR boundary input of length 100. -/
def c8m102bad : Message := ⟨[48, 50, 48, 48], [(102, List.replicate 100 65)]⟩

/-- LLLVAR boundary input of length 999. -/
def c8m48ok : Message := ⟨[48, 50, 48, 48], [(48, List.replicate 999 65)]⟩

/-- LLLVAR boundary input of length 1000. -/
def c8m48bad : Message := ⟨[48, 50, 48, 48], [(48, List.replicate 1000 65)]⟩

set_option maxRecDepth 100000 in
/-- C8: `Pack` enforces the variable-length limits exactly at the boundary: an
LLVAR value (DE102) of length 99 packs while length 100 fails, and an LLLVAR
value (DE48) of length 999 packs while length 1000 fails. -/
theorem c8_llvar_boundaries :
    isOk (Message.Pack c8m102ok) = true ∧ isOk (Message.Pack c8m102bad) = false ∧
    isOk (Message.Pack c8m48ok) = true ∧ isOk (Message.Pack c8m48bad) = false :=
  ⟨by decide, by decide, by decide, by decide⟩

/-- C9: `IsEchoResponse` holds exactly when the MTI is 0810, DE70 is present
with value 301, and DE11 is present. -/
theorem c9_is_echo_response (m : Message) :
    IsEchoResponse m = true ↔
      m.MTI = mti0810 ∧ m.get 70 = some nmm301 ∧ (m.get 11).isSome = true := by
  unfold IsEchoResponse
  by_cases hm : m.MTI = mti0810
  · rw [if_neg (by simpa using hm)]
    cases hg : m.get 70 with
    | none => simp
    | some v =>
      by_cases hv : v = nmm301
      · subst hv
        simp [hm]
      · simp [hm, hv]
  · rw [if_pos (by simpa using hm)]
    simp [hm]

/-- A frame whose DE102 LLVAR length prefix is the two ASCII bytes "-1". -/
def c10bytes : Bytes :=
  [0, 22] ++ [48, 56, 48, 48] ++ [128, 0, 0, 0, 0, 0, 0, 0] ++
  [0, 0, 0, 0, 4, 0, 0, 0] ++ [45, 49]

/-- C10 (code bug): `Unpack` is not total — a DE102 LLVAR length prefix of "-1"
is accepted by `strconv.Atoi`, passes the `off+l > len(b)` bound check because
`l` is negative, and then the slice expression `b[off : off+l]` panics. -/
theorem c10_negative_llvar_panics : Unpack c10bytes = .panicked := by decide

end Iso8583

namespace Transport

/-- C5 (counterexample): with the default 2 s base backoff, the fifth
consecutive failed dial sleeps 32 s, which exceeds the claimed 30 s cap — the
code doubles whenever the previous backoff is strictly below 30 s, so the sleep
overshoots the cap by up to a factor of two. -/
theorem c5_cap_counterexample :
    sleeps (2 * secondNs) (List.replicate 5 false)
      = [2 * secondNs, 4 * secondNs, 8 * secondNs, 16 * secondNs, 32 * secondNs] ∧
    capNs < 32 * secondNs :=
  ⟨by decide, by decide⟩

/-- C5 (amended): while dialing keeps failing the sleeps follow the doubling
recurrence (double while the previous value is strictly below 30 s, constant
once at least 30 s); every sleep stays below 60 s — twice the cap — whenever
the initial backoff does; and after a successful dial the next failure's sleep
restarts at the (defaulted) base value. -/
theorem c5_backoff (cfg : Int) (hinit : initBackoff cfg < 2 * capNs) :
    (∀ (es : List Bool) (s : Int), s ∈ sleeps cfg es → s < 2 * capNs) ∧
    (∀ n : Nat, sleeps cfg (List.replicate n false)
      = (List.range n).map (fun k => nextBackoff^[k] (initBackoff cfg))) ∧
    (∀ es rest : List Bool, sleeps cfg (es ++ true :: rest)
      = sleeps cfg es ++ sleeps cfg rest) := by
  refine ⟨?_, ?_, ?_⟩
  · intro es s hs
    exact loopSleeps_bound cfg hinit es (initBackoff cfg) hinit s hs
  · intro n
    exact loopSleeps_replicate cfg n (initBackoff cfg)
  · intro es rest
    exact loopSleeps_reset cfg es rest (initBackoff cfg)

/-- C5 (witness): the amended doubling behavior at the default 2 s base. -/
theorem c5_backoff_witness :
    sleeps (2 * secondNs) (List.replicate 3 false)
      = (List.range 3).map (fun k => nextBackoff^[k] (initBackoff (2 * secondNs))) :=
  (c5_backoff (2 * secondNs) (by decide)).2.1 3

end Transport
